import Mathlib

/-!
# Sim2D_Visual: the simulation engines of `hv/` and the frame loop of `main.cpp`

A shallow embedding of `src/include/hv/life.hpp`, `src/include/hv/heat.hpp`,
`src/include/hv/wave.hpp`, `src/include/hv/color.hpp` and of the sub-stepping blocks of
`src/src/main.cpp`.

Conventions of the embedding.

* `std::vector<T>` is a `List`; a read `v[k]` is `v.getD k 0` and a write
  `v[k] = x` is `v.set k x`.  Every loop of the source is a `List.foldl` over the
  list of values its counter takes, in the order the source visits them.
* `std::size_t` values are `Nat` and `int` values are `Int`.  Where the width of the
  machine types decides the result the arithmetic is reduced to it: the `int`
  arithmetic of `Life2D::toggle` (`wrapInt`), the conversion `(int)std::ceil(..)` of the
  frame loop (`castInt`), `nx-1` and `double(nx-1)` in the constructor of `Grid`
  (`sizeSub`, `toDouble`), and the index on 64 bits (`idx64`).  The subscripts of the
  engines are the exact `idx`, which is the 64-bit value for every cell of a grid of
  fewer than `2^64` cells (`Grid.grid_idx64_eq_idx`, `Life2D.life_idx64_eq_idx`).
* A division of `double` by zero gives an infinite value, which is no rational: the
  spacings computed by the constructor of `Grid` are of type `Spacing`.
* `float` and `double` values are rationals and arithmetic on them is exact; the
  rounding of `static_cast<float>` is not modelled.  `std::sqrt(2.0)` is a
  parameter of `Wave2D.stable_dt_max`.
* `uint8_t` cells are `Nat`; `^= 1` is `Nat.xor` with `1`.
* The pseudo-random generator of the C++ standard library used by `randomize` is a
  parameter: a type of generator states, the seeded state and one draw.
-/

namespace hv

/-! ## Machine integers and loop counters -/

/-- The value of an `int` expression whose exact result is `z`: `z` itself within the range
of `int`, beyond it the residue of `z` modulo `2^32` in that range (an overflow of `int` is
undefined in C++; the two's-complement residue is what the usual targets compute). -/
def wrapInt (z : Int) : Int := (z + 2 ^ 31) % 2 ^ 32 - 2 ^ 31

/-- The conversion `(int)x` of a `double` of integral value `z`: `z` itself within the range
of `int`; beyond it the conversion is undefined in C++, and the value is the one the
conversion instruction of x86-64 delivers, `-2^31`. -/
def castInt (z : Int) : Int := if -2 ^ 31 ≤ z ∧ z < 2 ^ 31 then z else -2 ^ 31

/-- The position of the leading bit of a 64-bit unsigned integer `n > 0`: the number of
powers `2^1, .., 2^64` that are at most `n`. -/
def leadingBit (n : Nat) : Nat := ((List.range 64).filter (fun k => 2 ^ (k + 1) ≤ n)).length

/-- The conversion `double(n)` of a 64-bit unsigned integer: exact below `2^53`, beyond it
rounded to 53 significant bits, to nearest with ties to even. -/
def toDouble (n : Nat) : Nat :=
  if n < 2 ^ 53 then n
  else
    let e := leadingBit n - 52
    let q := n / 2 ^ e
    let r := n % 2 ^ e
    let m := if 2 ^ e < 2 * r ∨ (2 * r = 2 ^ e ∧ q % 2 = 1) then q + 1 else q
    m * 2 ^ e

/-- The values taken by `for (int v = lo; v < hi; ++v)`, in order. -/
def intRange (lo hi : Int) : List Int :=
  (List.range (hi - lo).toNat).map (fun (k : Nat) => lo + (k : Int))

/-! ## `life.hpp` -/

/-- State of `struct Life2D`. -/
structure Life2D where
  nx : Nat
  ny : Nat
  a : List Nat
  b : List Nat
deriving DecidableEq

namespace Life2D

/-- Constructor `Life2D(nx_, ny_)`: both buffers are `nx_*ny_` zeros. -/
def new (nx_ ny_ : Nat) : Life2D :=
  { nx := nx_, ny := ny_, a := List.replicate (nx_ * ny_) 0, b := List.replicate (nx_ * ny_) 0 }

/-- Linear index `idx(i,j) = j*nx + i`, as an exact natural number: the subscript of the
cell `(i,j)` of a field of `nx*ny` cells, where the 64-bit arithmetic cannot wrap. -/
def idx (s : Life2D) (i j : Nat) : Nat := j * s.nx + i

/-- The function `Life2D::idx` as it is computed on the 64-bit `std::size_t`, for arbitrary
arguments: `j*nx + i` modulo `2^64`. -/
def idx64 (s : Life2D) (i j : Nat) : Nat := (j * s.nx + i) % 2 ^ 64

/-- The lambda `alive` of `step`: 0 outside the grid, else 1 iff the byte of `a` is non-zero. -/
def alive (s : Life2D) (x y : Int) : Int :=
  if x < 0 ∨ y < 0 ∨ x ≥ (s.nx : Int) ∨ y ≥ (s.ny : Int) then 0
  else if s.a.getD (s.idx x.toNat y.toNat) 0 ≠ 0 then 1 else 0

/-- The neighbour count `n` computed in the body of `step` for the cell `(i,j)`. -/
def neighbours (s : Life2D) (i j : Nat) : Int :=
  s.alive ((i : Int) - 1) ((j : Int) - 1) + s.alive (i : Int) ((j : Int) - 1)
    + s.alive ((i : Int) + 1) ((j : Int) - 1)
    + s.alive ((i : Int) - 1) (j : Int) + s.alive ((i : Int) + 1) (j : Int)
    + s.alive ((i : Int) - 1) ((j : Int) + 1) + s.alive (i : Int) ((j : Int) + 1)
    + s.alive ((i : Int) + 1) ((j : Int) + 1)

/-- The value `nxt` computed in the body of `step` for the cell `(i,j)`. -/
def nextCell (s : Life2D) (i j : Nat) : Nat :=
  let n := s.neighbours i j
  let cur := s.a.getD (s.idx i j) 0
  if cur ≠ 0 then (if n = 2 ∨ n = 3 then 1 else 0)
  else (if n = 3 then 1 else 0)

/-- One iteration of the inner loop of `step`: `b[idx(i,j)] = nxt`. -/
def stepCell (s : Life2D) (j : Nat) (b : List Nat) (i : Nat) : List Nat :=
  b.set (s.idx i j) (s.nextCell i j)

/-- One iteration of the outer loop of `step`: the row `j`. -/
def stepRow (s : Life2D) (b : List Nat) (j : Nat) : List Nat :=
  (List.range s.nx).foldl (s.stepCell j) b

/-- The function `Life2D::step`: fill `b` from `a`, then `a.swap(b)`. -/
def step (s : Life2D) : Life2D :=
  let b1 := (List.range s.ny).foldl s.stepRow s.b
  { s with a := b1, b := s.a }

/-- The test `dx*dx+dy*dy<=r2` of the inner loop of `toggle`, with `int dx=x-ix, dy=y-iy`,
every operation in `int` arithmetic. -/
def toggleHit (ix iy r2 x y : Int) : Prop :=
  wrapInt (wrapInt (wrapInt (x - ix) * wrapInt (x - ix))
    + wrapInt (wrapInt (y - iy) * wrapInt (y - iy))) ≤ r2

instance (ix iy r2 x y : Int) : Decidable (toggleHit ix iy r2 x y) := by
  unfold toggleHit; infer_instance

/-- The lower bound `std::max(0, c-radius)` of a loop of `toggle`, in `int` arithmetic. -/
def scanLo (c radius : Int) : Int := max 0 (wrapInt (c - radius))

/-- The upper bound `std::min<int>(n, c+radius+1)` of a loop of `toggle`: the size `n` is
converted to `int`, the sum is in `int` arithmetic. -/
def scanHi (n : Nat) (c radius : Int) : Int :=
  min (wrapInt n) (wrapInt (wrapInt (c + radius) + 1))

/-- One iteration of the inner loop of `toggle` (area branch). -/
def toggleCell (s : Life2D) (ix iy r2 y : Int) (a : List Nat) (x : Int) : List Nat :=
  if toggleHit ix iy r2 x y then a.set (s.idx x.toNat y.toNat) 1 else a

/-- One iteration of the outer loop of `toggle` (area branch): the row `y`, for `x` from
`std::max(0,ix-radius)` to `std::min<int>(nx,ix+radius+1)`. -/
def toggleRow (s : Life2D) (ix iy radius r2 : Int) (a : List Nat) (y : Int) : List Nat :=
  (intRange (scanLo ix radius) (scanHi s.nx ix radius)).foldl (s.toggleCell ix iy r2 y) a

/-- The function `Life2D::toggle(ix, iy, radius)`; the casts `(int)nx`, `(int)ny` and the
arithmetic on `ix`, `iy`, `radius` are those of `int`. -/
def toggle (s : Life2D) (ix iy radius : Int) : Life2D :=
  if ix < 0 ∨ iy < 0 ∨ ix ≥ wrapInt s.nx ∨ iy ≥ wrapInt s.ny then s
  else if radius ≤ 0 then
    let k := s.idx ix.toNat iy.toNat
    { s with a := s.a.set k (Nat.xor (s.a.getD k 0) 1) }
  else
    let r2 := wrapInt (radius * radius)
    let a1 := (intRange (scanLo iy radius) (scanHi s.ny iy radius)).foldl
      (s.toggleRow ix iy radius r2) s.a
    { s with a := a1 }

/-- The function `Life2D::clear`: `std::fill(a.begin(), a.end(), 0)`. -/
def clear (s : Life2D) : Life2D :=
  { s with a := s.a.map (fun _ => 0) }

/-- Both buffers have one byte per cell, as the constructor makes them. -/
def WF (s : Life2D) : Prop := s.a.length = s.nx * s.ny ∧ s.b.length = s.nx * s.ny

instance (s : Life2D) : Decidable s.WF := by unfold WF; infer_instance

end Life2D

/-! ### Conway's rule, as the specification words it -/

/-- The eight offsets of the Moore neighbourhood. -/
def mooreOffsets : List (Int × Int) :=
  [(-1, -1), (0, -1), (1, -1), (-1, 0), (1, 0), (-1, 1), (0, 1), (1, 1)]

/-- A cell `(x,y)` of the field `a` of an `nx` by `ny` grid is alive: it lies in
`[0,nx) x [0,ny)` and its byte is non-zero; a position outside the grid is dead. -/
def cellAlive (nx ny : Nat) (a : List Nat) (x y : Int) : Bool :=
  decide (0 ≤ x) && decide (x < (nx : Int)) && decide (0 ≤ y) && decide (y < (ny : Int))
    && decide (a.getD (y.toNat * nx + x.toNat) 0 ≠ 0)

/-- Number of alive Moore neighbours of `(i,j)` in the field `a`, no wraparound. -/
def mooreCount (nx ny : Nat) (a : List Nat) (i j : Nat) : Nat :=
  (mooreOffsets.filter (fun d => cellAlive nx ny a ((i : Int) + d.1) ((j : Int) + d.2))).length

/-- Conway's rule for the cell `(i,j)` of the field `a`. -/
def conwayAlive (nx ny : Nat) (a : List Nat) (i j : Nat) : Prop :=
  (a.getD (j * nx + i) 0 ≠ 0 ∧ (mooreCount nx ny a i j = 2 ∨ mooreCount nx ny a i j = 3))
    ∨ (a.getD (j * nx + i) 0 = 0 ∧ mooreCount nx ny a i j = 3)

instance (nx ny : Nat) (a : List Nat) (i j : Nat) : Decidable (conwayAlive nx ny a i j) := by
  unfold conwayAlive; infer_instance

/-! ## `heat.hpp` -/

/-- Unsigned subtraction on `std::size_t`: the difference modulo `2^64`. -/
def sizeSub (a b : Nat) : Nat := (a % 2 ^ 64 + 2 ^ 64 - b % 2 ^ 64) % 2 ^ 64

/-- State of `struct Grid`. -/
structure Grid where
  nx : Nat
  ny : Nat
  hx : ℚ
  hy : ℚ
deriving DecidableEq

/-- A spacing as the constructor of `Grid` computes it: a `double` that is a finite number,
or the `+inf` of a division by zero. -/
inductive Spacing where
  | finite (h : ℚ)
  | infinite
deriving DecidableEq

/-- The finite value of a spacing; an infinite spacing has none, and `0` stands for it. -/
def Spacing.value : Spacing → ℚ
  | Spacing.finite h => h
  | Spacing.infinite => 0

/-- A `Grid` object as the constructor leaves it: the sizes, and the two spacings. -/
structure GridValue where
  nx : Nat
  ny : Nat
  hx : Spacing
  hy : Spacing
deriving DecidableEq

namespace Grid

/-- The divisor `double(n-1)` of the constructor: `n-1` is unsigned on 64 bits and is then
converted to `double`. -/
def spacingDivisor (n : Nat) : Nat := toDouble (sizeSub n 1)

/-- The quotient `1.0 / double(n-1)` of the constructor: infinite when the divisor is `0`,
else the quotient, taken exactly. -/
def spacing (n : Nat) : Spacing :=
  if spacingDivisor n = 0 then Spacing.infinite
  else Spacing.finite (1 / (spacingDivisor n : ℚ))

/-- Constructor `Grid(nx_, ny_)`: stores the sizes as given and sets
`hx = 1.0 / double(nx-1)`, `hy = 1.0 / double(ny-1)`; there is no other statement in
its body. -/
def construct (nx_ ny_ : Nat) : GridValue :=
  { nx := nx_, ny := ny_, hx := spacing nx_, hy := spacing ny_ }

/-- The state `Grid` of the engines for the object that `Grid(nx_, ny_)` constructs.  The
spacings of the engines are rationals: this is the constructed object whenever its
spacings are finite, that is for `nx_` and `ny_` other than `1`. -/
def new (nx_ ny_ : Nat) : Grid :=
  { nx := (construct nx_ ny_).nx, ny := (construct nx_ ny_).ny,
    hx := (construct nx_ ny_).hx.value, hy := (construct nx_ ny_).hy.value }

/-- The function `Grid::size`. -/
def size (g : Grid) : Nat := g.nx * g.ny

/-- The function `Grid::idx`, as an exact natural number: the subscript of the cell `(i,j)`
of a field of `nx*ny` samples, where the 64-bit arithmetic cannot wrap. -/
def idx (g : Grid) (i j : Nat) : Nat := j * g.nx + i

/-- The function `Grid::idx` as it is computed on the 64-bit `std::size_t`, for arbitrary
arguments: `j*nx + i` modulo `2^64`. -/
def idx64 (g : Grid) (i j : Nat) : Nat := (j * g.nx + i) % 2 ^ 64

end Grid

/-- State of `struct Heat2D`. -/
structure Heat2D where
  g : Grid
  alpha : ℚ
  dt : ℚ
  u : List ℚ
  u_next : List ℚ
deriving DecidableEq

namespace Heat2D

/-- Constructor `Heat2D(nx, ny)` with the default member initialisers. -/
def new (nx ny : Nat) : Heat2D :=
  { g := Grid.new nx ny, alpha := 2 / 10, dt := 1 / 10000,
    u := List.replicate (Grid.new nx ny).size 0,
    u_next := List.replicate (Grid.new nx ny).size 0 }

/-- The value stored into `u_next[k]` by the body of the loops of `step` at `(i,j)`. -/
def nextCell (s : Heat2D) (i j : Nat) : ℚ :=
  let invhx2 : ℚ := 1 / (s.g.hx * s.g.hx)
  let invhy2 : ℚ := 1 / (s.g.hy * s.g.hy)
  let k := s.g.idx i j
  if i = 0 ∨ j = 0 ∨ i = s.g.nx - 1 ∨ j = s.g.ny - 1 then 0
  else
    let uij := s.u.getD k 0
    let ux1 := s.u.getD (s.g.idx (i + 1) j) 0
    let ux0 := s.u.getD (s.g.idx (i - 1) j) 0
    let uy1 := s.u.getD (s.g.idx i (j + 1)) 0
    let uy0 := s.u.getD (s.g.idx i (j - 1)) 0
    let lap := (ux1 - 2 * uij + ux0) * invhx2 + (uy1 - 2 * uij + uy0) * invhy2
    uij + s.dt * s.alpha * lap

/-- One iteration of the inner loop of `step`: `u_next[k] = ...`. -/
def stepCell (s : Heat2D) (j : Nat) (un : List ℚ) (i : Nat) : List ℚ :=
  un.set (s.g.idx i j) (s.nextCell i j)

/-- One iteration of the outer loop of `step`: the row `j`. -/
def stepRow (s : Heat2D) (un : List ℚ) (j : Nat) : List ℚ :=
  (List.range s.g.nx).foldl (s.stepCell j) un

/-- The function `Heat2D::step`: fill `u_next` from `u`, then `u.swap(u_next)`. -/
def step (s : Heat2D) : Heat2D :=
  let un := (List.range s.g.ny).foldl s.stepRow s.u_next
  { s with u := un, u_next := s.u }

/-- One iteration of the inner loop of `paint`. -/
def paintCell (s : Heat2D) (ix iy r2 : Int) (amp : ℚ) (y : Int) (u : List ℚ) (x : Int) :
    List ℚ :=
  let dx := x - ix
  let dy := y - iy
  if dx * dx + dy * dy ≤ r2 then
    let k := s.g.idx x.toNat y.toNat
    u.set k (u.getD k 0 + amp)
  else u

/-- One iteration of the outer loop of `paint`: the row `y`. -/
def paintRow (s : Heat2D) (ix iy radius r2 : Int) (amp : ℚ) (u : List ℚ) (y : Int) : List ℚ :=
  (intRange (max 1 (ix - radius)) (min ((s.g.nx : Int) - 1) (ix + radius))).foldl
    (s.paintCell ix iy r2 amp y) u

/-- The function `Heat2D::paint(ix, iy, radius, amp)`. -/
def paint (s : Heat2D) (ix iy radius : Int) (amp : ℚ) : Heat2D :=
  let r2 := radius * radius
  let u1 := (intRange (max 1 (iy - radius)) (min ((s.g.ny : Int) - 1) (iy + radius))).foldl
    (s.paintRow ix iy radius r2 amp) s.u
  { s with u := u1 }

/-- The function `Heat2D::stable_dt_max`. -/
def stable_dt_max (s : Heat2D) : ℚ :=
  let h2 := min (s.g.hx * s.g.hx) (s.g.hy * s.g.hy)
  (1 / 2) * h2 / max (1 / 10 ^ 12) s.alpha

/-- The function `Heat2D::reset`. -/
def reset (s : Heat2D) : Heat2D :=
  { s with u := s.u.map (fun _ => 0) }

/-- Both buffers have one sample per cell, as the constructor makes them. -/
def WF (s : Heat2D) : Prop :=
  s.u.length = s.g.nx * s.g.ny ∧ s.u_next.length = s.g.nx * s.g.ny

instance (s : Heat2D) : Decidable s.WF := by unfold WF; infer_instance

end Heat2D

/-! ## `wave.hpp` -/

/-- State of `struct Wave2D`. -/
structure Wave2D where
  g : Grid
  c : ℚ
  dt : ℚ
  u : List ℚ
  u_prev : List ℚ
  u_next : List ℚ
deriving DecidableEq

namespace Wave2D

/-- Constructor `Wave2D(nx, ny)` with the default member initialisers. -/
def new (nx ny : Nat) : Wave2D :=
  { g := Grid.new nx ny, c := 1, dt := 1 / 1000,
    u := List.replicate (Grid.new nx ny).size 0,
    u_prev := List.replicate (Grid.new nx ny).size 0,
    u_next := List.replicate (Grid.new nx ny).size 0 }

/-- The value stored into `u_next[k]` by the body of the loops of `step` at `(i,j)`. -/
def nextCell (s : Wave2D) (i j : Nat) : ℚ :=
  let invhx2 : ℚ := 1 / (s.g.hx * s.g.hx)
  let invhy2 : ℚ := 1 / (s.g.hy * s.g.hy)
  let c2dt2 : ℚ := (s.c * s.c) * (s.dt * s.dt)
  let k := s.g.idx i j
  if i = 0 ∨ j = 0 ∨ i = s.g.nx - 1 ∨ j = s.g.ny - 1 then 0
  else
    let uij := s.u.getD k 0
    let ux1 := s.u.getD (s.g.idx (i + 1) j) 0
    let ux0 := s.u.getD (s.g.idx (i - 1) j) 0
    let uy1 := s.u.getD (s.g.idx i (j + 1)) 0
    let uy0 := s.u.getD (s.g.idx i (j - 1)) 0
    let lap := (ux1 - 2 * uij + ux0) * invhx2 + (uy1 - 2 * uij + uy0) * invhy2
    2 * uij - s.u_prev.getD k 0 + c2dt2 * lap

/-- One iteration of the inner loop of `step`: `u_next[k] = ...`. -/
def stepCell (s : Wave2D) (j : Nat) (un : List ℚ) (i : Nat) : List ℚ :=
  un.set (s.g.idx i j) (s.nextCell i j)

/-- One iteration of the outer loop of `step`: the row `j`. -/
def stepRow (s : Wave2D) (un : List ℚ) (j : Nat) : List ℚ :=
  (List.range s.g.nx).foldl (s.stepCell j) un

/-- The function `Wave2D::step`: fill `u_next`, then `u_prev.swap(u); u.swap(u_next)`. -/
def step (s : Wave2D) : Wave2D :=
  let s1 := { s with u_next := (List.range s.g.ny).foldl s.stepRow s.u_next }
  let s2 := { s1 with u_prev := s1.u, u := s1.u_prev }
  { s2 with u := s2.u_next, u_next := s2.u }

/-- One iteration of the inner loop of `paint`. -/
def paintCell (s : Wave2D) (ix iy r2 : Int) (amp : ℚ) (y : Int) (u : List ℚ) (x : Int) :
    List ℚ :=
  let dx := x - ix
  let dy := y - iy
  if dx * dx + dy * dy ≤ r2 then
    let k := s.g.idx x.toNat y.toNat
    u.set k (u.getD k 0 + amp)
  else u

/-- One iteration of the outer loop of `paint`: the row `y`. -/
def paintRow (s : Wave2D) (ix iy radius r2 : Int) (amp : ℚ) (u : List ℚ) (y : Int) : List ℚ :=
  (intRange (max 1 (ix - radius)) (min ((s.g.nx : Int) - 1) (ix + radius))).foldl
    (s.paintCell ix iy r2 amp y) u

/-- The function `Wave2D::paint(ix, iy, radius, amp)`. -/
def paint (s : Wave2D) (ix iy radius : Int) (amp : ℚ) : Wave2D :=
  let r2 := radius * radius
  let u1 := (intRange (max 1 (iy - radius)) (min ((s.g.ny : Int) - 1) (iy + radius))).foldl
    (s.paintRow ix iy radius r2 amp) s.u
  { s with u := u1 }

/-- The function `Wave2D::stable_dt_max`; `sqrt2` is the value of `std::sqrt(2.0)`. -/
def stable_dt_max (sqrt2 : ℚ) (s : Wave2D) : ℚ :=
  let h := min s.g.hx s.g.hy
  h / (max (1 / 10 ^ 12) s.c * sqrt2)

/-- The function `Wave2D::reset`. -/
def reset (s : Wave2D) : Wave2D :=
  { s with u := s.u.map (fun _ => 0), u_prev := s.u_prev.map (fun _ => 0) }

/-- The three buffers have one sample per cell, as the constructor makes them. -/
def WF (s : Wave2D) : Prop :=
  s.u.length = s.g.nx * s.g.ny ∧ s.u_prev.length = s.g.nx * s.g.ny ∧
    s.u_next.length = s.g.nx * s.g.ny

instance (s : Wave2D) : Decidable s.WF := by unfold WF; infer_instance

end Wave2D

/-! ## `main.cpp`: the sub-stepping blocks of the frame loop

Each block is returned together with a trace: the list, in call order, of the
values the engine's `dt` holds at each call of `step()`.  The trace is not part of
the source; it records how many integrator steps a frame runs and at which `dt`. -/

/-- The number of sub-steps `sub` chosen by a block for the time step `dt` and bound `mx`:
`std::min(10, (int)std::ceil(dt/mx))` when `dt > mx`, else `1`. -/
def substepCount (dt mx : ℚ) : Int :=
  if dt > mx then min 10 (castInt ⌈dt / mx⌉) else 1

/-- The time step `subdt` chosen by a block for the time step `dt` and bound `mx`:
`dt/sub` when `dt > mx`, else `dt`. -/
def substepDt (dt mx : ℚ) : ℚ :=
  if dt > mx then dt / ((min 10 (castInt ⌈dt / mx⌉) : Int) : ℚ) else dt

/-- The loop `for (int i=0;i<sub;++i){ heat.dt=subdt; heat.step(); }`. -/
def heatSubsteps (subdt : ℚ) (sub : Int) (heat : Heat2D) : Heat2D × List ℚ :=
  (intRange 0 sub).foldl
    (fun p _ => (Heat2D.step { p.1 with dt := subdt }, p.2 ++ [subdt])) (heat, [])

/-- The block `if (mode==Mode::Heat) { ... }` of the stepping phase of a frame. -/
def heatFrame (heat : Heat2D) : Heat2D × List ℚ :=
  let mx := heat.stable_dt_max
  let sub := substepCount heat.dt mx
  let subdt := substepDt heat.dt mx
  let old := heat.dt
  let r := heatSubsteps subdt sub heat
  ({ r.1 with dt := old }, r.2)

/-- The loop `for (int i=0;i<sub;++i){ wave.dt=subdt; wave.step(); }`. -/
def waveSubsteps (subdt : ℚ) (sub : Int) (wave : Wave2D) : Wave2D × List ℚ :=
  (intRange 0 sub).foldl
    (fun p _ => (Wave2D.step { p.1 with dt := subdt }, p.2 ++ [subdt])) (wave, [])

/-- The block `else if (mode==Mode::Wave) { ... }` of the stepping phase of a frame. -/
def waveFrame (sqrt2 : ℚ) (wave : Wave2D) : Wave2D × List ℚ :=
  let mx := wave.stable_dt_max sqrt2
  let sub := substepCount wave.dt mx
  let subdt := substepDt wave.dt mx
  let old := wave.dt
  let r := waveSubsteps subdt sub wave
  ({ r.1 with dt := old }, r.2)

/-! ## Quantities of the specification -/

/-- The 5-point Laplacian of the field `u` at the cell `(i,j)`, with weights `1/hx^2` and
`1/hy^2`, as the specification words it. -/
def lap5 (g : Grid) (u : List ℚ) (i j : Nat) : ℚ :=
  (u.getD (j * g.nx + (i + 1)) 0 - 2 * u.getD (j * g.nx + i) 0 + u.getD (j * g.nx + (i - 1)) 0)
      / (g.hx ^ 2)
    + (u.getD ((j + 1) * g.nx + i) 0 - 2 * u.getD (j * g.nx + i) 0
        + u.getD ((j - 1) * g.nx + i) 0) / (g.hy ^ 2)

/-- Largest absolute value of a field (`0` for the empty field). -/
def maxAbs (u : List ℚ) : ℚ := u.foldl (fun m v => max m |v|) 0

/-! ## Sample states -/

/-- A `5 x 5` heat engine with `alpha = 1`, `dt = 1/32` and a field of alternating sign on
its `3 x 3` interior, zero on the boundary. -/
def heatCheckerboard : Heat2D :=
  { g := Grid.new 5 5, alpha := 1, dt := 1 / 32,
    u := [0, 0, 0, 0, 0,
          0, 1, -1, 1, 0,
          0, -1, 1, -1, 0,
          0, 1, -1, 1, 0,
          0, 0, 0, 0, 0],
    u_next := List.replicate 25 0 }

/-- The heat engine `heatCheckerboard` with `dt` three times its stability bound. -/
def heatTriple : Heat2D := { heatCheckerboard with dt := 3 / 32 }

/-- The heat engine `heatCheckerboard` with `dt = 2^36`; the frame loop raises `dt` by the
factor `1.2` at every `KEY_RIGHT` and puts no upper bound on it. -/
def heatHuge : Heat2D := { heatCheckerboard with dt := 2 ^ 36 }

/-- A `3 x 3` wave engine with non-zero fields in all three buffers. -/
def waveSample : Wave2D :=
  { g := Grid.new 3 3, c := 1, dt := 1 / 4,
    u := [1, 2, 3, 4, 5, 6, 7, 8, 9],
    u_prev := [9, 8, 7, 6, 5, 4, 3, 2, 1],
    u_next := [5, 5, 5, 5, 5, 5, 5, 5, 5] }

/-! ## `life.hpp`: `randomize`

`std::mt19937` and `std::bernoulli_distribution` belong to the C++ standard library.  The
generator is a parameter of the embedding: a type `Rng` of the states of the two objects
`rng` and `bern`, the state `seed n` after `std::mt19937 rng(n)`, and `draw p r`, the
result of `bern(rng)` for the distribution `bern(p)` in the state `r` together with the state
it leaves. -/

/-- One iteration of the loop of `randomize`: `v = bern(rng) ? 1 : 0` for the next cell. -/
def Life2D.randomizeCell {Rng : Type} (draw : ℚ → Rng → Bool × Rng) (p : ℚ)
    (acc : List Nat × Rng) (_v : Nat) : List Nat × Rng :=
  (acc.1 ++ [if (draw p acc.2).1 then 1 else 0], (draw p acc.2).2)

/-- The function `Life2D::randomize(p)`: a generator seeded with `12345` is created, and
every cell of `a`, in order, receives `1` or `0` after one draw. -/
def Life2D.randomize {Rng : Type} (seed : Nat → Rng) (draw : ℚ → Rng → Bool × Rng)
    (s : Life2D) (p : ℚ) : Life2D :=
  { s with a := (s.a.foldl (Life2D.randomizeCell draw p) ([], seed 12345)).1 }

/-- The field of `len` cells drawn from a generator seeded with `12345`, cell after cell. -/
def randomField {Rng : Type} (seed : Nat → Rng) (draw : ℚ → Rng → Bool × Rng) (p : ℚ)
    (len : Nat) : List Nat :=
  ((List.range len).foldl (Life2D.randomizeCell draw p) ([], seed 12345)).1

/-- A toy generator: the state is a counter, a draw succeeds on the multiples of three. -/
def toyDraw (_p : ℚ) (r : Nat) : Bool × Nat := (decide (r % 3 = 0), r + 1)

/-- Every cell of a field is exactly `0` or `1`. -/
def Life2D.binary (s : Life2D) : Prop := ∀ v ∈ s.a, v = 0 ∨ v = 1

/-- The state of rest of the wave engine: buffers of `nx*ny` samples, `u` and `u_prev` zero. -/
def Wave2D.atRest (s : Wave2D) : Prop :=
  s.WF ∧ (∀ v ∈ s.u, v = 0) ∧ (∀ v ∈ s.u_prev, v = 0)

/-! ## `color.hpp` -/

/-- The function `std::clamp(v, lo, hi)`. -/
def clamp (v lo hi : ℚ) : ℚ := if v < lo then lo else if hi < v then hi else v

/-- The conversion `static_cast<uint8_t>(x)` of a `float`: the fractional part is
discarded and the integer is reduced modulo `256`. -/
def toUint8 (x : ℚ) : Nat := ((if 0 ≤ x then ⌊x⌋ else ⌈x⌉) % 256).toNat

/-- The value `255.0f * v` of `gray`, before its conversion to a byte. -/
def grayChannel (v : ℚ) : ℚ :=
  let v1 := clamp v 0 1
  255 * v1

/-- The function `gray(v)`. -/
def gray (v : ℚ) : Nat × Nat × Nat × Nat :=
  let c := toUint8 (grayChannel v)
  (c, c, c, 255)

/-- The values `255*r`, `255*g`, `255*b` of `fire`, before their conversion to bytes; the
literals `1.5f`, `0.3f` and `0.6f` are the rationals `3/2`, `3/10` and `6/10`. -/
def fireChannels (v : ℚ) : ℚ × ℚ × ℚ :=
  let v1 := clamp v 0 1
  let r := min (3 / 2 * v1) 1
  let g := min (max (3 / 2 * (v1 - 3 / 10)) 0) 1
  let b := min (max (3 / 2 * (v1 - 6 / 10)) 0) 1
  (255 * r, 255 * g, 255 * b)

/-- The function `fire(v)`. -/
def fire (v : ℚ) : Nat × Nat × Nat × Nat :=
  let c := fireChannels v
  (toUint8 c.1, toUint8 c.2.1, toUint8 c.2.2, 255)

/-- The values `255*v`, `255*(1.0f-v)` of `blue_red`, before their conversion to bytes. -/
def blueRedChannels (v : ℚ) : ℚ × ℚ :=
  let v1 := clamp v 0 1
  (255 * v1, 255 * (1 - v1))

/-- The function `blue_red(v)`. -/
def blue_red (v : ℚ) : Nat × Nat × Nat × Nat :=
  let c := blueRedChannels v
  (toUint8 c.1, 0, toUint8 c.2, 255)

/-! ## Indices used by the PDE engines

The bodies of the loops of `Heat2D::step` and `Wave2D::step` index their fields in the same
way, and so do `Heat2D::paint` and `Wave2D::paint`; the lists below record, in program
order, every index that appears in a subscript.  They are not part of the source. -/

/-- The subscripts evaluated by the body of the loops of `step` at `(i,j)`: `k` for the
write, and for an interior cell `k`, `idx(i+1,j)`, `idx(i-1,j)`, `idx(i,j+1)`,
`idx(i,j-1)` for the reads. -/
def Grid.cellAccesses (g : Grid) (i j : Nat) : List Nat :=
  if i = 0 ∨ j = 0 ∨ i = g.nx - 1 ∨ j = g.ny - 1 then [g.idx i j]
  else [g.idx i j, g.idx (i + 1) j, g.idx (i - 1) j, g.idx i (j + 1), g.idx i (j - 1), g.idx i j]

/-- The subscripts evaluated by one call of `step`, over both loops. -/
def Grid.stepAccesses (g : Grid) : List Nat :=
  (List.range g.ny).foldl
    (fun acc j => (List.range g.nx).foldl (fun acc i => acc ++ g.cellAccesses i j) acc) []

/-- The subscripts evaluated by one call of `paint(ix, iy, radius, amp)`, over both loops. -/
def Grid.paintAccesses (g : Grid) (ix iy radius : Int) : List Nat :=
  (intRange (max 1 (iy - radius)) (min ((g.ny : Int) - 1) (iy + radius))).foldl
    (fun acc y =>
      (intRange (max 1 (ix - radius)) (min ((g.nx : Int) - 1) (ix + radius))).foldl
        (fun acc x =>
          if (x - ix) * (x - ix) + (y - iy) * (y - iy) ≤ radius * radius then
            acc ++ [g.idx x.toNat y.toNat]
          else acc) acc) []

/-! ## Further sample states -/

/-- A `3 x 3` wave engine at rest, with a non-zero scratch field. -/
def waveRest : Wave2D :=
  { g := Grid.new 3 3, c := 2, dt := 1 / 2,
    u := List.replicate 9 0, u_prev := List.replicate 9 0,
    u_next := [5, 5, 5, 5, 5, 5, 5, 5, 5] }

/-- A `3 x 3` heat engine with an all-zero field and a non-zero scratch field. -/
def heatRest : Heat2D :=
  { g := Grid.new 3 3, alpha := 7, dt := 3,
    u := List.replicate 9 0, u_next := [5, 5, 5, 5, 5, 5, 5, 5, 5] }

end hv

/-! # Lemmas and theorems -/

namespace hv

/-! ## Loops that write a field -/

/-- A loop whose every iteration `y` overwrites with `val k` the cells `k` picked by `P y` and
keeps the others: the cells picked by some iteration end with `val k`, the others are
unchanged, and the length is kept. -/
theorem foldl_write {α γ : Type} (val : Nat → α) (g : List α → γ → List α)
    (P : γ → Nat → Prop) (ys : List γ)
    (hlen : ∀ l, ∀ y ∈ ys, (g l y).length = l.length)
    (hhit : ∀ l, ∀ y ∈ ys, ∀ k, k < l.length → P y k → (g l y)[k]? = some (val k))
    (hmiss : ∀ l, ∀ y ∈ ys, ∀ k, ¬ P y k → (g l y)[k]? = l[k]?) :
    ∀ l0, (ys.foldl g l0).length = l0.length ∧
      ∀ k, (k < l0.length → (∃ y ∈ ys, P y k) → (ys.foldl g l0)[k]? = some (val k)) ∧
        ((∀ y ∈ ys, ¬ P y k) → (ys.foldl g l0)[k]? = l0[k]?) := by
  induction ys with
  | nil =>
    intro l0
    refine ⟨rfl, fun k => ⟨?_, fun _ => rfl⟩⟩
    rintro _ ⟨y, hy, _⟩
    cases hy
  | cons y ys ih =>
    intro l0
    have hy : y ∈ y :: ys := List.mem_cons_self _ _
    have ih1 := ih (fun l z hz => hlen l z (List.mem_cons_of_mem _ hz))
      (fun l z hz => hhit l z (List.mem_cons_of_mem _ hz))
      (fun l z hz => hmiss l z (List.mem_cons_of_mem _ hz)) (g l0 y)
    obtain ⟨hl, hk⟩ := ih1
    rw [List.foldl_cons]
    refine ⟨hl.trans (hlen l0 y hy), fun k => ⟨?_, ?_⟩⟩
    · intro hlt hex
      by_cases hrest : ∃ z ∈ ys, P z k
      · exact (hk k).1 (by rw [hlen l0 y hy]; exact hlt) hrest
      · have hnone : ∀ z ∈ ys, ¬ P z k := fun z hz hp => hrest ⟨z, hz, hp⟩
        rw [(hk k).2 hnone]
        obtain ⟨z, hz, hp⟩ := hex
        rcases List.mem_cons.1 hz with rfl | hz'
        · exact hhit l0 z hy k hlt hp
        · exact absurd hp (hnone z hz')
    · intro hnone
      rw [(hk k).2 (fun z hz => hnone z (List.mem_cons_of_mem _ hz))]
      exact hmiss l0 y hy k (hnone y hy)

/-- Row-major decoding of a linear index. -/
theorem idx_decode (nx i j : Nat) (hi : i < nx) : (j * nx + i) % nx = i ∧ (j * nx + i) / nx = j := by
  constructor
  · rw [Nat.add_comm, Nat.add_mul_mod_self_right, Nat.mod_eq_of_lt hi]
  · rw [Nat.add_comm, Nat.add_mul_div_right _ _ (by omega : 0 < nx), Nat.div_eq_of_lt hi]
    omega

/-- A cell of the grid has its linear index below `nx*ny`. -/
theorem idx_lt (nx ny i j : Nat) (hi : i < nx) (hj : j < ny) : j * nx + i < nx * ny := by
  have h1 : (j + 1) * nx ≤ ny * nx := Nat.mul_le_mul_right nx hj
  have h2 : (j + 1) * nx = j * nx + nx := by ring
  have h3 : ny * nx = nx * ny := Nat.mul_comm _ _
  omega

/-- The linear index is injective on the columns `i < nx`. -/
theorem idx_inj (nx i j i' j' : Nat) (hi : i < nx) (hi' : i' < nx)
    (h : j * nx + i = j' * nx + i') : i = i' ∧ j = j' := by
  have h1 := idx_decode nx i j hi
  have h2 := idx_decode nx i' j' hi'
  rw [h] at h1
  exact ⟨h1.1.symm.trans h2.1, h1.2.symm.trans h2.2⟩

/-- A doubly nested loop writing `f i j` at `j*nx+i` for all `i < nx`, `j < ny`. -/
theorem foldl_grid_write {α : Type} (nx ny : Nat) (f : Nat → Nat → α)
    (cell : Nat → List α → Nat → List α)
    (hcell : ∀ j l i, cell j l i = l.set (j * nx + i) (f i j)) (l0 : List α) :
    let res := (List.range ny).foldl (fun l j => (List.range nx).foldl (cell j) l) l0
    res.length = l0.length ∧
      (∀ i j, i < nx → j < ny → j * nx + i < l0.length → res[j * nx + i]? = some (f i j)) ∧
      (∀ k, nx * ny ≤ k → res[k]? = l0[k]?) := by
  intro res
  have hrow : ∀ j l, ((List.range nx).foldl (cell j) l).length = l.length ∧
      ∀ k, (k < l.length → (∃ i ∈ List.range nx, k = j * nx + i) →
          ((List.range nx).foldl (cell j) l)[k]? = some (f (k % nx) (k / nx))) ∧
        ((∀ i ∈ List.range nx, ¬ k = j * nx + i) →
          ((List.range nx).foldl (cell j) l)[k]? = l[k]?) := by
    intro j l
    refine foldl_write (fun k => f (k % nx) (k / nx)) (cell j) (fun i k => k = j * nx + i)
      (List.range nx) ?_ ?_ ?_ l
    · intro l i _
      rw [hcell, List.length_set]
    · intro l i hi k hk hki
      have hi' : i < nx := List.mem_range.1 hi
      subst hki
      rw [hcell, List.getElem?_set_self hk]
      show some (f i j) = some (f ((j * nx + i) % nx) ((j * nx + i) / nx))
      rw [(idx_decode nx i j hi').1, (idx_decode nx i j hi').2]
    · intro l i _ k hki
      rw [hcell, List.getElem?_set_ne (fun h => hki h.symm)]
  have hall := foldl_write (fun k => f (k % nx) (k / nx))
    (fun l j => (List.range nx).foldl (cell j) l)
    (fun j k => ∃ i ∈ List.range nx, k = j * nx + i) (List.range ny)
    (fun l j _ => (hrow j l).1) (fun l j _ k hk hp => ((hrow j l).2 k).1 hk hp)
    (fun l j _ k hp => ((hrow j l).2 k).2 (fun i hi h => hp ⟨i, hi, h⟩)) l0
  refine ⟨hall.1, ?_, ?_⟩
  · intro i j hi hj hk
    have := (hall.2 (j * nx + i)).1 hk ⟨j, List.mem_range.2 hj, i, List.mem_range.2 hi, rfl⟩
    rw [this]
    show some (f ((j * nx + i) % nx) ((j * nx + i) / nx)) = some (f i j)
    rw [(idx_decode nx i j hi).1, (idx_decode nx i j hi).2]
  · intro k hk
    refine (hall.2 k).2 ?_
    rintro j hj ⟨i, hi, rfl⟩
    have := idx_lt nx ny i j (List.mem_range.1 hi) (List.mem_range.1 hj)
    omega

/-- The counter of `for (int v = lo; v < hi; ++v)` takes exactly the values `lo <= v < hi`. -/
theorem mem_intRange (lo hi z : Int) : z ∈ intRange lo hi ↔ lo ≤ z ∧ z < hi := by
  unfold intRange
  rw [List.mem_map]
  constructor
  · rintro ⟨k, hk, rfl⟩
    have := List.mem_range.1 hk
    omega
  · intro h
    exact ⟨(z - lo).toNat, List.mem_range.2 (by omega), by omega⟩

/-- The loop `for (int v = lo; v < hi; ++v)` runs `hi - lo` times, and not at all when `hi <=
lo`. -/
theorem length_intRange (lo hi : Int) : (intRange lo hi).length = (hi - lo).toNat := by
  unfold intRange
  rw [List.length_map, List.length_range]

/-- A loop whose body ignores its counter applies the body once per iteration. -/
theorem foldl_ignore_iterate {α β : Type} (F : α → α) (L : List β) (init : α) :
    L.foldl (fun p _ => F p) init = F^[L.length] init := by
  induction L generalizing init with
  | nil => rfl
  | cons b L ih => rw [List.foldl_cons, ih, List.length_cons, Function.iterate_succ_apply]

/-- Iterating a step that appends `c` to the trace yields the iterated state and `n` copies of
`c`. -/
theorem iterate_trace {σ : Type} (f : σ → σ) (c : ℚ) (n : Nat) (h : σ) :
    (fun p : σ × List ℚ => (f p.1, p.2 ++ [c]))^[n] (h, []) = (f^[n] h, List.replicate n c) := by
  induction n with
  | zero => rfl
  | succ n ih =>
    rw [Function.iterate_succ_apply', ih, Function.iterate_succ_apply', List.replicate_succ']

/-- Writing back the value a cell holds changes nothing. -/
theorem set_same {α : Type} (l : List α) (k : Nat) (hk : k < l.length) : l.set k l[k] = l := by
  apply List.ext_getElem?
  intro n
  by_cases h : k = n
  · subst h
    rw [List.getElem?_set_self hk, List.getElem?_eq_getElem hk]
  · rw [List.getElem?_set_ne h]

/-- Flipping the lowest bit twice gives the byte back. -/
theorem xor_one_xor_one (v : Nat) : Nat.xor (Nat.xor v 1) 1 = v := by
  show (v ^^^ 1) ^^^ 1 = v
  rw [Nat.xor_assoc, Nat.xor_self, Nat.xor_zero]

/-- The number of elements kept by a filter is the sum of its indicator. -/
theorem length_filter_eq_sum {β : Type} (p : β → Bool) (l : List β) :
    ((l.filter p).length : Int) = (l.map (fun d => if p d then (1 : Int) else 0)).sum := by
  induction l with
  | nil => rfl
  | cons d l ih =>
    by_cases h : p d <;> simp [List.filter_cons, h, ih]
    omega

/-! ## The steps of the three engines, cell by cell -/

/-- The lambda `alive` of the source is the indicator of `cellAlive`. -/
theorem Life2D.alive_eq_cellAlive (s : Life2D) (x y : Int) :
    s.alive x y = if cellAlive s.nx s.ny s.a x y then 1 else 0 := by
  unfold alive cellAlive idx
  by_cases h : x < 0 ∨ y < 0 ∨ x ≥ (s.nx : Int) ∨ y ≥ (s.ny : Int)
  · rw [if_pos h]
    have : ¬ (0 ≤ x ∧ x < (s.nx : Int) ∧ 0 ≤ y ∧ y < (s.ny : Int)) := by omega
    simp only [Bool.and_eq_true, decide_eq_true_eq]
    rw [if_neg]
    tauto
  · rw [if_neg h]
    have h2 : 0 ≤ x ∧ x < (s.nx : Int) ∧ 0 ≤ y ∧ y < (s.ny : Int) := by omega
    simp [h2.1, h2.2.1, h2.2.2.1, h2.2.2.2]

/-- The count `n` of the source is the number of alive Moore neighbours. -/
theorem Life2D.neighbours_eq_mooreCount (s : Life2D) (i j : Nat) :
    s.neighbours i j = (mooreCount s.nx s.ny s.a i j : Int) := by
  unfold mooreCount
  rw [length_filter_eq_sum]
  simp only [neighbours, alive_eq_cellAlive, mooreOffsets, List.map_cons, List.map_nil,
    List.sum_cons, List.sum_nil]
  simp only [Int.add_zero, Int.sub_eq_add_neg]
  ring

/-- After `Life2D::step`, the cell `(i,j)` of `a` holds the value `nxt` computed from the old
`a`. -/
theorem Life2D.life_step_getElem? (s : Life2D) (hb : s.b.length = s.nx * s.ny) (i j : Nat)
    (hi : i < s.nx) (hj : j < s.ny) :
    s.step.a[s.idx i j]? = some (s.nextCell i j) := by
  have h := foldl_grid_write s.nx s.ny (fun i j => s.nextCell i j)
    (fun j l i => s.stepCell j l i) (fun _ _ _ => rfl) s.b
  exact h.2.1 i j hi hj (by rw [hb]; exact idx_lt _ _ i j hi hj)

/-- After `Life2D::step`, `a` has the length of the old scratch buffer. -/
theorem Life2D.life_step_length (s : Life2D) : s.step.a.length = s.b.length :=
  (foldl_grid_write s.nx s.ny (fun i j => s.nextCell i j)
    (fun j l i => s.stepCell j l i) (fun _ _ _ => rfl) s.b).1

/-- After `Heat2D::step`, the cell `(i,j)` of `u` holds the value computed from the old `u`.
-/
theorem Heat2D.heat_step_getElem? (s : Heat2D) (hn : s.u_next.length = s.g.nx * s.g.ny) (i j : Nat)
    (hi : i < s.g.nx) (hj : j < s.g.ny) :
    s.step.u[s.g.idx i j]? = some (s.nextCell i j) := by
  have h := foldl_grid_write s.g.nx s.g.ny (fun i j => s.nextCell i j)
    (fun j l i => s.stepCell j l i) (fun _ _ _ => rfl) s.u_next
  exact h.2.1 i j hi hj (by rw [hn]; exact idx_lt _ _ i j hi hj)

/-- After `Heat2D::step`, `u` has the length of the old scratch buffer. -/
theorem Heat2D.heat_step_length (s : Heat2D) : s.step.u.length = s.u_next.length :=
  (foldl_grid_write s.g.nx s.g.ny (fun i j => s.nextCell i j)
    (fun j l i => s.stepCell j l i) (fun _ _ _ => rfl) s.u_next).1

/-- After `Heat2D::step`, reading the cell `(i,j)` of `u` gives the value computed from the
old `u`. -/
theorem Heat2D.heat_step_getD (s : Heat2D) (hn : s.u_next.length = s.g.nx * s.g.ny) (i j : Nat)
    (hi : i < s.g.nx) (hj : j < s.g.ny) :
    s.step.u.getD (s.g.idx i j) 0 = s.nextCell i j := by
  rw [List.getD_eq_getElem?_getD, heat_step_getElem? s hn i j hi hj]; rfl

/-- After `Wave2D::step`, the cell `(i,j)` of `u` holds the value computed from the old
fields. -/
theorem Wave2D.wave_step_getElem? (s : Wave2D) (hn : s.u_next.length = s.g.nx * s.g.ny) (i j : Nat)
    (hi : i < s.g.nx) (hj : j < s.g.ny) :
    s.step.u[s.g.idx i j]? = some (s.nextCell i j) := by
  have h := foldl_grid_write s.g.nx s.g.ny (fun i j => s.nextCell i j)
    (fun j l i => s.stepCell j l i) (fun _ _ _ => rfl) s.u_next
  exact h.2.1 i j hi hj (by rw [hn]; exact idx_lt _ _ i j hi hj)

/-- After `Wave2D::step`, `u` has the length of the old scratch buffer. -/
theorem Wave2D.wave_step_length (s : Wave2D) : s.step.u.length = s.u_next.length :=
  (foldl_grid_write s.g.nx s.g.ny (fun i j => s.nextCell i j)
    (fun j l i => s.stepCell j l i) (fun _ _ _ => rfl) s.u_next).1

/-- After `Wave2D::step`, reading the cell `(i,j)` of `u` gives the value computed from the
old fields. -/
theorem Wave2D.wave_step_getD (s : Wave2D) (hn : s.u_next.length = s.g.nx * s.g.ny) (i j : Nat)
    (hi : i < s.g.nx) (hj : j < s.g.ny) :
    s.step.u.getD (s.g.idx i j) 0 = s.nextCell i j := by
  rw [List.getD_eq_getElem?_getD, wave_step_getElem? s hn i j hi hj]; rfl

/-- An `int` expression whose exact value is in the range of `int` has that value. -/
theorem wrapInt_eq (z : Int) (h : -2 ^ 31 ≤ z ∧ z < 2 ^ 31) : wrapInt z = z := by
  unfold wrapInt; omega

/-- The conversion of a size to `int` never exceeds the size. -/
theorem wrapInt_le (n : Nat) : wrapInt (n : Int) ≤ (n : Int) := by
  unfold wrapInt; omega

/-- One row of the area branch of `toggle`: the cells of the row that pass the test become
`1`, every other cell is kept. -/
theorem Life2D.toggleRow_spec (s : Life2D) (ix iy radius r2 y : Int) (a : List Nat) :
    (s.toggleRow ix iy radius r2 a y).length = a.length ∧
      ∀ k, (k < a.length →
          (∃ x ∈ intRange (scanLo ix radius) (scanHi s.nx ix radius),
            toggleHit ix iy r2 x y ∧ k = s.idx x.toNat y.toNat) →
          (s.toggleRow ix iy radius r2 a y)[k]? = some 1) ∧
        ((∀ x ∈ intRange (scanLo ix radius) (scanHi s.nx ix radius),
            ¬ (toggleHit ix iy r2 x y ∧ k = s.idx x.toNat y.toNat)) →
          (s.toggleRow ix iy radius r2 a y)[k]? = a[k]?) := by
  refine foldl_write (fun _ => 1) (s.toggleCell ix iy r2 y)
    (fun x k => toggleHit ix iy r2 x y ∧ k = s.idx x.toNat y.toNat)
    _ ?_ ?_ ?_ a
  · intro l x _
    unfold toggleCell
    by_cases h : toggleHit ix iy r2 x y
    · simp only [if_pos h, List.length_set]
    · simp only [if_neg h]
  · intro l x _ k hk hp
    unfold toggleCell
    simp only [if_pos hp.1]
    rw [← hp.2, List.getElem?_set_self hk]
  · intro l x _ k hp
    unfold toggleCell
    by_cases h : toggleHit ix iy r2 x y
    · simp only [if_pos h]
      rw [List.getElem?_set_ne (fun e => hp ⟨h, e.symm⟩)]
    · simp only [if_neg h]

/-- The area branch of `toggle`: the scanned cells that pass the test become `1`, every other
cell is kept. -/
theorem Life2D.toggle_area_spec (s : Life2D) (ix iy radius : Int)
    (hin : ¬ (ix < 0 ∨ iy < 0 ∨ ix ≥ wrapInt s.nx ∨ iy ≥ wrapInt s.ny)) (hr : 0 < radius) :
    (s.toggle ix iy radius).nx = s.nx ∧ (s.toggle ix iy radius).ny = s.ny ∧
      (s.toggle ix iy radius).b = s.b ∧
      (s.toggle ix iy radius).a.length = s.a.length ∧
      ∀ k, (k < s.a.length →
          (∃ y ∈ intRange (scanLo iy radius) (scanHi s.ny iy radius),
            ∃ x ∈ intRange (scanLo ix radius) (scanHi s.nx ix radius),
              toggleHit ix iy (wrapInt (radius * radius)) x y
                ∧ k = s.idx x.toNat y.toNat) →
          (s.toggle ix iy radius).a[k]? = some 1) ∧
        ((∀ y ∈ intRange (scanLo iy radius) (scanHi s.ny iy radius),
            ¬ ∃ x ∈ intRange (scanLo ix radius) (scanHi s.nx ix radius),
              toggleHit ix iy (wrapInt (radius * radius)) x y
                ∧ k = s.idx x.toNat y.toNat) →
          (s.toggle ix iy radius).a[k]? = s.a[k]?) := by
  have h1 : s.toggle ix iy radius = Life2D.mk s.nx s.ny
      ((intRange (scanLo iy radius) (scanHi s.ny iy radius)).foldl
        (s.toggleRow ix iy radius (wrapInt (radius * radius))) s.a) s.b := by
    unfold toggle
    rw [if_neg hin, if_neg (by omega)]
  rw [h1]
  have h := foldl_write (fun _ => 1) (s.toggleRow ix iy radius (wrapInt (radius * radius)))
    (fun y k => ∃ x ∈ intRange (scanLo ix radius) (scanHi s.nx ix radius),
      toggleHit ix iy (wrapInt (radius * radius)) x y ∧ k = s.idx x.toNat y.toNat)
    (intRange (scanLo iy radius) (scanHi s.ny iy radius))
    (fun l y _ => (toggleRow_spec s ix iy radius _ y l).1)
    (fun l y _ k hk hp => ((toggleRow_spec s ix iy radius _ y l).2 k).1 hk hp)
    (fun l y _ k hp => ((toggleRow_spec s ix iy radius _ y l).2 k).2
      (fun x hx hc => hp ⟨x, hx, hc⟩)) s.a
  exact ⟨rfl, rfl, rfl, h.1, h.2⟩

/-- The heat sub-step loop calls `step()` exactly `sub` times (not at all when `sub <= 0`),
each time at `subdt`. -/
theorem heatSubsteps_eq (subdt : ℚ) (sub : Int) (heat : Heat2D) :
    heatSubsteps subdt sub heat =
      ((fun s : Heat2D => Heat2D.step { s with dt := subdt })^[sub.toNat] heat,
        List.replicate sub.toNat subdt) := by
  unfold heatSubsteps
  rw [foldl_ignore_iterate (fun p : Heat2D × List ℚ =>
    (Heat2D.step { p.1 with dt := subdt }, p.2 ++ [subdt])), length_intRange, Int.sub_zero]
  exact iterate_trace (fun s : Heat2D => Heat2D.step { s with dt := subdt }) subdt _ heat

/-- The wave sub-step loop calls `step()` exactly `sub` times (not at all when `sub <= 0`),
each time at `subdt`. -/
theorem waveSubsteps_eq (subdt : ℚ) (sub : Int) (wave : Wave2D) :
    waveSubsteps subdt sub wave =
      ((fun s : Wave2D => Wave2D.step { s with dt := subdt })^[sub.toNat] wave,
        List.replicate sub.toNat subdt) := by
  unfold waveSubsteps
  rw [foldl_ignore_iterate (fun p : Wave2D × List ℚ =>
    (Wave2D.step { p.1 with dt := subdt }, p.2 ++ [subdt])), length_intRange, Int.sub_zero]
  exact iterate_trace (fun s : Wave2D => Wave2D.step { s with dt := subdt }) subdt _ wave

/-- For `dt = 3*mx` with `mx > 0` the block sub-steps, with a count of `3`. -/
theorem substep_three (dt mx : ℚ) (hmx : 0 < mx) (h3 : dt = 3 * mx) :
    mx < dt ∧ min 10 ⌈dt / mx⌉ = 3 := by
  have hq : dt / mx = ((3 : Int) : ℚ) := by
    rw [h3]; field_simp
  rw [hq, Int.ceil_intCast]
  constructor
  · linarith
  · decide

/-- The grid `5 x 5` has spacing `1/4` in both directions. -/
theorem grid_new_five : Grid.new 5 5 = ⟨5, 5, 1 / 4, 1 / 4⟩ := by
  simp [Grid.new, Grid.construct, Grid.spacing, Grid.spacingDivisor, sizeSub, toDouble,
    Spacing.value]

/-- The stability bound of `heatTriple` is `1/32`. -/
theorem heatTriple_bound : heatTriple.stable_dt_max = 1 / 32 := by
  simp [heatTriple, heatCheckerboard, Heat2D.stable_dt_max, grid_new_five]
  norm_num

/-- The stability bound of `waveSample`, with `7/5` for the square root of two, is `5/14`. -/
theorem waveSample_bound : waveSample.stable_dt_max (7 / 5) = 5 / 14 := by
  have hg : Grid.new 3 3 = ⟨3, 3, 1 / 2, 1 / 2⟩ := by
    simp [Grid.new, Grid.construct, Grid.spacing, Grid.spacingDivisor, sizeSub, toDouble,
      Spacing.value]
  simp [waveSample, Wave2D.stable_dt_max, hg]
  norm_num

/-! ## C1: `Life2D::step` is Conway's rule -/

/-- C2: after `Heat2D::step`, every cell of the current field `u` on the outermost rows
and columns (`i = 0`, `i = nx-1`, `j = 0` or `j = ny-1`) is `0`, whatever `alpha`, `dt`,
the input field `u` and the contents of the scratch field were. -/
theorem C2_heat_step_boundary_zero (s : Heat2D) (hnx : 2 ≤ s.g.nx) (hny : 2 ≤ s.g.ny)
    (hn : s.u_next.length = s.g.nx * s.g.ny) (i j : Nat) (hi : i < s.g.nx) (hj : j < s.g.ny)
    (hb : i = 0 ∨ i = s.g.nx - 1 ∨ j = 0 ∨ j = s.g.ny - 1) :
    s.step.u.getD (s.g.idx i j) 0 = 0 := by
  have _h := And.intro hnx hny
  rw [Heat2D.heat_step_getD s hn i j hi hj]
  unfold Heat2D.nextCell
  have hb' : i = 0 ∨ j = 0 ∨ i = s.g.nx - 1 ∨ j = s.g.ny - 1 := by tauto
  simp only [if_pos hb']

/-- Witness of C2: the boundary cell `(4,2)` of the `5 x 5` checkerboard engine. -/
theorem C2_heat_step_boundary_zero_witness :
    (2 ≤ heatCheckerboard.g.nx ∧ 2 ≤ heatCheckerboard.g.ny ∧
        heatCheckerboard.u_next.length = heatCheckerboard.g.nx * heatCheckerboard.g.ny) ∧
      heatCheckerboard.step.u.getD (heatCheckerboard.g.idx 4 2) 0 = 0 :=
  ⟨by decide, C2_heat_step_boundary_zero heatCheckerboard (by decide) (by decide) (by decide)
    4 2 (by decide) (by decide) (by decide)⟩

/-! ## C3: `Heat2D::stable_dt_max` against the maximum of the field -/

/-- The running maximum of a loop over a field is below `M` exactly when its start and every
absolute value are. -/
theorem foldl_max_le_iff (u : List ℚ) (m0 M : ℚ) :
    u.foldl (fun m v => max m |v|) m0 ≤ M ↔ m0 ≤ M ∧ ∀ v ∈ u, |v| ≤ M := by
  induction u generalizing m0 with
  | nil => simp
  | cons a u ih =>
    rw [List.foldl_cons, ih, max_le_iff]
    simp only [List.mem_cons, forall_eq_or_imp]
    tauto

/-- The largest absolute value of a field is below `M` exactly when `M >= 0` and every
absolute value is. -/
theorem maxAbs_le_iff (u : List ℚ) (M : ℚ) : maxAbs u ≤ M ↔ 0 ≤ M ∧ ∀ v ∈ u, |v| ≤ M :=
  foldl_max_le_iff u 0 M

/-- The largest absolute value of a field is not negative. -/
theorem maxAbs_nonneg (u : List ℚ) : 0 ≤ maxAbs u :=
  ((maxAbs_le_iff u (maxAbs u)).1 (le_refl _)).1

/-- Every read of a field is bounded by its largest absolute value. -/
theorem abs_getD_le_maxAbs (u : List ℚ) (k : Nat) : |u.getD k 0| ≤ maxAbs u := by
  rw [List.getD_eq_getElem?_getD]
  by_cases hk : k < u.length
  · rw [List.getElem?_eq_getElem hk, Option.getD_some]
    exact ((maxAbs_le_iff u (maxAbs u)).1 (le_refl _)).2 _ (List.getElem_mem _)
  · rw [List.getElem?_eq_none (by omega)]
    simpa using maxAbs_nonneg u

/-- A convex combination of a cell and its four neighbours is bounded by a bound of the five.
-/
theorem stencil_bound (c e w n z M A B : ℚ) (hc : |c| ≤ M) (he : |e| ≤ M) (hw : |w| ≤ M)
    (hn : |n| ≤ M) (hz : |z| ≤ M) (hA : 0 ≤ A) (hB : 0 ≤ B) (hAB : 2 * A + 2 * B ≤ 1) :
    |c + (A * (e - 2 * c + w) + B * (n - 2 * c + z))| ≤ M := by
  have hc' := abs_le.1 hc
  have he' := abs_le.1 he
  have hw' := abs_le.1 hw
  have hn' := abs_le.1 hn
  have hz' := abs_le.1 hz
  have hD : 0 ≤ 1 - 2 * A - 2 * B := by linarith
  rw [abs_le]
  constructor
  · nlinarith [mul_le_mul_of_nonneg_left hc'.1 hD, mul_le_mul_of_nonneg_left he'.1 hA,
      mul_le_mul_of_nonneg_left hw'.1 hA, mul_le_mul_of_nonneg_left hn'.1 hB,
      mul_le_mul_of_nonneg_left hz'.1 hB]
  · nlinarith [mul_le_mul_of_nonneg_left hc'.2 hD, mul_le_mul_of_nonneg_left he'.2 hA,
      mul_le_mul_of_nonneg_left hw'.2 hA, mul_le_mul_of_nonneg_left hn'.2 hB,
      mul_le_mul_of_nonneg_left hz'.2 hB]

/-- The smaller squared spacing is at most the squared spacing of one direction. -/
theorem min_sq_div_le (a b : ℚ) : min (a * a) (b * b) * (1 / a ^ 2) ≤ 1 := by
  by_cases ha : a = 0
  · subst ha; simp
  · have hpos : 0 < a ^ 2 := by positivity
    rw [mul_one_div, div_le_one hpos, sq]
    exact min_le_left _ _

/-- The value `Heat2D::step` computes for a cell is bounded by the largest absolute value of
the field when `dt*alpha*(2/hx^2 + 2/hy^2) <= 1`. -/
theorem Heat2D.abs_nextCell_le (s : Heat2D) (ha : 0 ≤ s.alpha) (hdt : 0 ≤ s.dt)
    (hcfl : s.dt * s.alpha * (2 / s.g.hx ^ 2 + 2 / s.g.hy ^ 2) ≤ 1) (i j : Nat) :
    |s.nextCell i j| ≤ maxAbs s.u := by
  unfold Heat2D.nextCell
  by_cases hb : i = 0 ∨ j = 0 ∨ i = s.g.nx - 1 ∨ j = s.g.ny - 1
  · simp only [if_pos hb]
    simpa using maxAbs_nonneg s.u
  · simp only [if_neg hb]
    have hA : 0 ≤ s.dt * s.alpha * (1 / (s.g.hx * s.g.hx)) :=
      mul_nonneg (mul_nonneg hdt ha) (one_div_nonneg.2 (mul_self_nonneg _))
    have hB : 0 ≤ s.dt * s.alpha * (1 / (s.g.hy * s.g.hy)) :=
      mul_nonneg (mul_nonneg hdt ha) (one_div_nonneg.2 (mul_self_nonneg _))
    have hAB : 2 * (s.dt * s.alpha * (1 / (s.g.hx * s.g.hx)))
        + 2 * (s.dt * s.alpha * (1 / (s.g.hy * s.g.hy))) ≤ 1 := by
      have : s.dt * s.alpha * (2 / s.g.hx ^ 2 + 2 / s.g.hy ^ 2)
          = 2 * (s.dt * s.alpha * (1 / (s.g.hx * s.g.hx)))
            + 2 * (s.dt * s.alpha * (1 / (s.g.hy * s.g.hy))) := by ring
      rw [← this]; exact hcfl
    have h := stencil_bound (s.u.getD (s.g.idx i j) 0) (s.u.getD (s.g.idx (i + 1) j) 0)
      (s.u.getD (s.g.idx (i - 1) j) 0) (s.u.getD (s.g.idx i (j + 1)) 0)
      (s.u.getD (s.g.idx i (j - 1)) 0) (maxAbs s.u) _ _
      (abs_getD_le_maxAbs _ _) (abs_getD_le_maxAbs _ _) (abs_getD_le_maxAbs _ _)
      (abs_getD_le_maxAbs _ _) (abs_getD_le_maxAbs _ _) hA hB hAB
    refine le_of_eq_of_le (congrArg abs ?_) h
    ring

/-- With the bound of the two-dimensional scheme, `dt*alpha*(2/hx^2 + 2/hy^2) <= 1`, one
`Heat2D::step` does not increase the largest absolute value of the field. -/
theorem Heat2D.step_maxAbs_le (s : Heat2D) (hn : s.u_next.length = s.g.nx * s.g.ny)
    (ha : 0 ≤ s.alpha) (hdt : 0 ≤ s.dt)
    (hcfl : s.dt * s.alpha * (2 / s.g.hx ^ 2 + 2 / s.g.hy ^ 2) ≤ 1) :
    maxAbs s.step.u ≤ maxAbs s.u := by
  rw [maxAbs_le_iff]
  refine ⟨maxAbs_nonneg _, ?_⟩
  intro v hv
  obtain ⟨k, hk, rfl⟩ := List.getElem_of_mem hv
  rw [Heat2D.heat_step_length, hn] at hk
  have hnx : 0 < s.g.nx := by
    rcases Nat.eq_zero_or_pos s.g.nx with h0 | h0
    · rw [h0] at hk; omega
    · exact h0
  have hi : k % s.g.nx < s.g.nx := Nat.mod_lt _ hnx
  have hj : k / s.g.nx < s.g.ny := (Nat.div_lt_iff_lt_mul hnx).2 (by rw [Nat.mul_comm]; exact hk)
  have hkk : s.g.idx (k % s.g.nx) (k / s.g.nx) = k := by
    unfold Grid.idx; rw [Nat.mul_comm]; exact Nat.div_add_mod k s.g.nx
  have h := Heat2D.heat_step_getElem? s hn (k % s.g.nx) (k / s.g.nx) hi hj
  rw [hkk] at h
  have hk2 : k < s.step.u.length := by rw [Heat2D.heat_step_length, hn]; exact hk
  rw [List.getElem?_eq_getElem hk2] at h
  rw [Option.some.inj h]
  exact Heat2D.abs_nextCell_le s ha hdt hcfl _ _

/-- Half of `Heat2D::stable_dt_max` is a stability bound: for `alpha >= 0` and
`0 <= dt <= stable_dt_max()/2`, one `Heat2D::step` does not increase the largest absolute
value of the field. -/
theorem Heat2D.step_maxAbs_le_of_half_bound (s : Heat2D)
    (hn : s.u_next.length = s.g.nx * s.g.ny) (ha : 0 ≤ s.alpha) (hdt : 0 ≤ s.dt)
    (hle : s.dt ≤ s.stable_dt_max / 2) : maxAbs s.step.u ≤ maxAbs s.u := by
  apply Heat2D.step_maxAbs_le s hn ha hdt
  have hgoal : s.dt * s.alpha * (2 / s.g.hx ^ 2 + 2 / s.g.hy ^ 2)
      = s.dt * s.alpha * (2 * (1 / s.g.hx ^ 2) + 2 * (1 / s.g.hy ^ 2)) := by ring
  rw [hgoal]
  unfold Heat2D.stable_dt_max at hle
  simp only at hle
  have hE : 0 < max (1 / 10 ^ 12 : ℚ) s.alpha := lt_max_of_lt_left (by norm_num)
  have hEa : s.alpha ≤ max (1 / 10 ^ 12 : ℚ) s.alpha := le_max_right _ _
  have hm : 0 ≤ min (s.g.hx * s.g.hx) (s.g.hy * s.g.hy) :=
    le_min (mul_self_nonneg _) (mul_self_nonneg _)
  have hx := min_sq_div_le s.g.hx s.g.hy
  have hy := min_sq_div_le s.g.hy s.g.hx
  rw [min_comm] at hy
  generalize min (s.g.hx * s.g.hx) (s.g.hy * s.g.hy) = m at hle hm hx hy
  generalize max (1 / 10 ^ 12 : ℚ) s.alpha = E at hle hE hEa
  have hX : 0 ≤ 1 / s.g.hx ^ 2 := one_div_nonneg.2 (sq_nonneg _)
  have hY : 0 ≤ 1 / s.g.hy ^ 2 := one_div_nonneg.2 (sq_nonneg _)
  generalize 1 / s.g.hx ^ 2 = X at hx hX ⊢
  generalize 1 / s.g.hy ^ 2 = Y at hy hY ⊢
  have h1 : s.dt * s.alpha ≤ m / 4 := by
    have h2 : s.dt * E ≤ m / 4 := by
      have := mul_le_mul_of_nonneg_right hle (le_of_lt hE)
      have h3 : 1 / 2 * m / E / 2 * E = m / 4 := by field_simp; ring
      rw [h3] at this; exact this
    exact le_trans (mul_le_mul_of_nonneg_left hEa hdt) h2
  have h5 : s.dt * s.alpha * (2 * X + 2 * Y) ≤ m / 4 * (2 * X + 2 * Y) :=
    mul_le_mul_of_nonneg_right h1 (by linarith)
  linarith

/-- C3, at the failing input: on a `5 x 5` grid with `alpha = 1` and `dt = stable_dt_max()
= 1/32`, the field of alternating sign (zero on the boundary, largest absolute value `1`)
is taken by one `Heat2D::step` to a field of largest absolute value `3`, the centre
cell going from `1` to `-3`. -/
theorem C3_heat_stable_dt_max_unstable :
    2 ≤ heatCheckerboard.g.nx ∧ 2 ≤ heatCheckerboard.g.ny ∧ 0 < heatCheckerboard.alpha ∧
      0 < heatCheckerboard.dt ∧ heatCheckerboard.dt ≤ heatCheckerboard.stable_dt_max ∧
      heatCheckerboard.WF ∧
      (∀ i j, i < 5 → j < 5 → (i = 0 ∨ i = 4 ∨ j = 0 ∨ j = 4) →
        heatCheckerboard.u.getD (heatCheckerboard.g.idx i j) 0 = 0) ∧
      maxAbs heatCheckerboard.u = 1 ∧
      heatCheckerboard.step.u.getD (heatCheckerboard.g.idx 2 2) 0 = -3 ∧
      maxAbs heatCheckerboard.step.u = 3 ∧
      ¬ (maxAbs heatCheckerboard.step.u ≤ maxAbs heatCheckerboard.u) := by
  have hstep : heatCheckerboard.step.u =
      [0, 0, 0, 0, 0, 0, -2, 5 / 2, -2, 0, 0, 5 / 2, -3, 5 / 2, 0, 0, -2, 5 / 2, -2, 0,
        0, 0, 0, 0, 0] := by
    simp [heatCheckerboard, Heat2D.step, Heat2D.stepRow, Heat2D.stepCell, Heat2D.nextCell,
      grid_new_five, Grid.idx, List.range_succ, List.range_zero]
    norm_num
  have hm0 : maxAbs heatCheckerboard.u = 1 := by
    simp [heatCheckerboard, maxAbs]
  have hm1 : maxAbs heatCheckerboard.step.u = 3 := by
    rw [hstep]
    simp [maxAbs]
    norm_num [abs_of_neg, abs_of_pos]
  refine ⟨by decide, by decide, ?_, ?_, ?_, by decide, ?_, hm0, ?_, hm1, ?_⟩
  · simp [heatCheckerboard]
  · simp [heatCheckerboard]
  · simp [heatCheckerboard, Heat2D.stable_dt_max, grid_new_five]
    norm_num
  · intro i j hi hj _
    interval_cases i <;> interval_cases j <;> simp_all [heatCheckerboard, grid_new_five, Grid.idx]
  · rw [hstep]; simp [heatCheckerboard, grid_new_five, Grid.idx]
  · rw [hm0, hm1]; norm_num

/-! ## C4: the stamp of `Heat2D::paint` -/

/-- C4, at the failing input: on the all-zero `5 x 5` heat engine, `paint(2, 2, 1, 1)`
leaves the interior cells `(3,2)` and `(2,3)`, at distance exactly `radius` from the centre,
at `0` although it raises `(1,2)` and `(2,1)` to `1`; and `paint(2, 2, 0, 1)` leaves the
centre `(2,2)` itself at `0`. -/
theorem C4_heat_paint_misses_upper_edge :
    ((3 : Int) - 2) ^ 2 + ((2 : Int) - 2) ^ 2 ≤ (1 : Int) ^ 2 ∧
      ((Heat2D.new 5 5).paint 2 2 1 1).u.getD ((Heat2D.new 5 5).g.idx 3 2) 0 = 0 ∧
      ((Heat2D.new 5 5).paint 2 2 1 1).u.getD ((Heat2D.new 5 5).g.idx 2 3) 0 = 0 ∧
      ((Heat2D.new 5 5).paint 2 2 1 1).u.getD ((Heat2D.new 5 5).g.idx 1 2) 0 = 1 ∧
      ((Heat2D.new 5 5).paint 2 2 1 1).u.getD ((Heat2D.new 5 5).g.idx 2 1) 0 = 1 ∧
      ((Heat2D.new 5 5).paint 2 2 1 1).u.getD ((Heat2D.new 5 5).g.idx 2 2) 0 = 1 ∧
      ((Heat2D.new 5 5).paint 2 2 0 1).u.getD ((Heat2D.new 5 5).g.idx 2 2) 0 = 0 ∧
      (Heat2D.new 5 5).u.getD ((Heat2D.new 5 5).g.idx 3 2) 0 + 1 ≠
        ((Heat2D.new 5 5).paint 2 2 1 1).u.getD ((Heat2D.new 5 5).g.idx 3 2) 0 := by
  have hu : (Heat2D.new 5 5).u = List.replicate 25 0 := rfl
  have hg : (Heat2D.new 5 5).g = ⟨5, 5, 1 / 4, 1 / 4⟩ := grid_new_five
  have hr1 : intRange 1 3 = [1, 2] := by decide
  have hr0 : intRange 2 2 = [] := by decide
  have hp1 : ((Heat2D.new 5 5).paint 2 2 1 1).u =
      [0, 0, 0, 0, 0, 0, 0, 1, 0, 0, 0, 1, 1, 0, 0, 0, 0, 0, 0, 0, 0, 0, 0, 0, 0] := by
    simp [Heat2D.paint, Heat2D.paintRow, Heat2D.paintCell, hu, hg, Grid.idx, hr1,
      List.replicate]
  have hp0 : ((Heat2D.new 5 5).paint 2 2 0 1).u = List.replicate 25 0 := by
    simp [Heat2D.paint, Heat2D.paintRow, Heat2D.paintCell, hu, hg, Grid.idx, hr0]
  rw [hp1, hp0, hu, hg]
  simp [Grid.idx]

/-! ## C5: `Wave2D::step` is the leapfrog update -/

/-- C5: `Wave2D::step` leaves the pre-step `u` in `u_prev` and the pre-step `u_prev` in
`u_next`, keeps the grid, `c` and `dt`, zeroes every boundary cell of `u`, and gives every
interior cell the leapfrog value `2*u - u_prev + c^2*dt^2*lap5 u`. -/
theorem C5_wave_step_leapfrog (s : Wave2D) (hnx : 2 ≤ s.g.nx) (hny : 2 ≤ s.g.ny) (hwf : s.WF) :
    s.step.u_prev = s.u ∧ s.step.u_next = s.u_prev ∧
      s.step.g = s.g ∧ s.step.c = s.c ∧ s.step.dt = s.dt ∧
      s.step.u.length = s.g.nx * s.g.ny ∧
      (∀ i j, i < s.g.nx → j < s.g.ny →
        (i = 0 ∨ i = s.g.nx - 1 ∨ j = 0 ∨ j = s.g.ny - 1) →
          s.step.u.getD (s.g.idx i j) 0 = 0) ∧
      (∀ i j, 0 < i → i < s.g.nx - 1 → 0 < j → j < s.g.ny - 1 →
        s.step.u.getD (s.g.idx i j) 0 =
          2 * s.u.getD (s.g.idx i j) 0 - s.u_prev.getD (s.g.idx i j) 0
            + s.c ^ 2 * s.dt ^ 2 * lap5 s.g s.u i j) := by
  have _h := And.intro hnx hny
  refine ⟨rfl, rfl, rfl, rfl, rfl, ?_, ?_, ?_⟩
  · rw [Wave2D.wave_step_length, hwf.2.2]
  · intro i j hi hj hb
    rw [Wave2D.wave_step_getD s hwf.2.2 i j hi hj]
    unfold Wave2D.nextCell
    have hb' : i = 0 ∨ j = 0 ∨ i = s.g.nx - 1 ∨ j = s.g.ny - 1 := by tauto
    simp only [if_pos hb']
  · intro i j hi0 hi hj0 hj
    rw [Wave2D.wave_step_getD s hwf.2.2 i j (by omega) (by omega)]
    unfold Wave2D.nextCell lap5
    have hb' : ¬ (i = 0 ∨ j = 0 ∨ i = s.g.nx - 1 ∨ j = s.g.ny - 1) := by omega
    simp only [if_neg hb', Grid.idx]
    ring

/-- Witness of C5: the `3 x 3` wave engine `waveSample` and its interior cell `(1,1)`. -/
theorem C5_wave_step_leapfrog_witness :
    (2 ≤ waveSample.g.nx ∧ 2 ≤ waveSample.g.ny ∧ waveSample.WF) ∧
      waveSample.step.u_prev = waveSample.u ∧ waveSample.step.u_next = waveSample.u_prev ∧
      waveSample.step.u.getD (waveSample.g.idx 1 1) 0 =
        2 * waveSample.u.getD (waveSample.g.idx 1 1) 0
          - waveSample.u_prev.getD (waveSample.g.idx 1 1) 0
          + waveSample.c ^ 2 * waveSample.dt ^ 2 * lap5 waveSample.g waveSample.u 1 1 :=
  ⟨by decide,
    (C5_wave_step_leapfrog waveSample (by decide) (by decide) (by decide)).1,
    (C5_wave_step_leapfrog waveSample (by decide) (by decide) (by decide)).2.1,
    (C5_wave_step_leapfrog waveSample (by decide) (by decide) (by decide)).2.2.2.2.2.2.2
      1 1 (by decide) (by decide) (by decide) (by decide)⟩

/-! ## C6: the sub-stepping blocks of the frame loop -/

/-- A conversion `(int)x` of an integral value within the range of `int` keeps the value. -/
theorem castInt_eq (z : Int) (h : -2 ^ 31 ≤ z ∧ z < 2 ^ 31) : castInt z = z := if_pos h

/-- The value converted by a sub-stepping block is positive: `dt > mx > 0`. -/
theorem ceil_ratio_pos (dt mx : ℚ) (hmx : 0 < mx) (h : mx < dt) : 0 < ⌈dt / mx⌉ :=
  Int.ceil_pos.2 (div_pos (lt_trans hmx h) hmx)

/-- The stability bound of `heatHuge` is `1/32`. -/
theorem heatHuge_bound : heatHuge.stable_dt_max = 1 / 32 := by
  simp [heatHuge, heatCheckerboard, Heat2D.stable_dt_max, grid_new_five]
  norm_num

/-- Within the range of `int` the lower bound of a loop of `toggle` is `max(0, c-radius)`. -/
theorem Life2D.scanLo_eq (c radius : Int) (hc : 0 ≤ c ∧ c < 2 ^ 31) (hr : 0 ≤ radius ∧ radius < 2 ^ 31) :
    scanLo c radius = max 0 (c - radius) := by
  unfold scanLo
  rw [wrapInt_eq _ (by omega)]

/-- Within the range of `int` the upper bound of a loop of `toggle` is
`min(n, c+radius+1)`. -/
theorem Life2D.scanHi_eq (n : Nat) (c radius : Int) (hc : 0 ≤ c) (hr : 0 ≤ radius)
    (hn : (n : Int) < 2 ^ 31) (hs : c + radius + 1 < 2 ^ 31) :
    scanHi n c radius = min (n : Int) (c + radius + 1) := by
  unfold scanHi
  rw [wrapInt_eq (n : Int) (by omega), wrapInt_eq (c + radius) (by omega),
    wrapInt_eq (c + radius + 1) (by omega)]

/-- For a radius of at most `32767` and offsets of at most the radius, no operation of the
test of `toggle` leaves the range of `int`: the test is the comparison of the exact
values. -/
theorem Life2D.toggleHit_iff (ix iy radius x y : Int) (hr : 0 ≤ radius ∧ radius ≤ 32767)
    (hx : -radius ≤ x - ix ∧ x - ix ≤ radius) (hy : -radius ≤ y - iy ∧ y - iy ≤ radius) :
    toggleHit ix iy (wrapInt (radius * radius)) x y ↔
      (x - ix) * (x - ix) + (y - iy) * (y - iy) ≤ radius * radius := by
  have hrr : 0 ≤ radius * radius ∧ radius * radius ≤ 1073676289 := by
    constructor
    · nlinarith
    · nlinarith
  have hxx : 0 ≤ (x - ix) * (x - ix) ∧ (x - ix) * (x - ix) ≤ 1073676289 := by
    constructor
    · exact mul_self_nonneg _
    · nlinarith [mul_nonneg (show (0 : Int) ≤ x - ix + 32767 by omega)
        (show (0 : Int) ≤ 32767 - (x - ix) by omega)]
  have hyy : 0 ≤ (y - iy) * (y - iy) ∧ (y - iy) * (y - iy) ≤ 1073676289 := by
    constructor
    · exact mul_self_nonneg _
    · nlinarith [mul_nonneg (show (0 : Int) ≤ y - iy + 32767 by omega)
        (show (0 : Int) ≤ 32767 - (y - iy) by omega)]
  unfold toggleHit
  rw [wrapInt_eq (x - ix) (by omega), wrapInt_eq (y - iy) (by omega),
    wrapInt_eq ((x - ix) * (x - ix)) (by omega), wrapInt_eq ((y - iy) * (y - iy)) (by omega),
    wrapInt_eq (radius * radius) (by omega),
    wrapInt_eq ((x - ix) * (x - ix) + (y - iy) * (y - iy)) (by omega)]

/-- C7, counterexample: on the `3 x 3` field of dead cells `toggle(1, 1, 65536)` sets the
centre cell only.  The cell `(0,0)` is at squared distance `2 <= 65536^2` of the centre and
stays `0`: `radius*radius` is `2^32`, which the `int r2` holds as `0`. -/
theorem C7_area_toggle_radius_overflow :
    (Life2D.new 3 3).WF ∧ ((0 : Int) ≤ 1 ∧ (1 : Int) < ((Life2D.new 3 3).nx : Int)) ∧
      ((0 : Int) ≤ 1 ∧ (1 : Int) < ((Life2D.new 3 3).ny : Int)) ∧ (0 : Int) < 65536 ∧
      0 < (Life2D.new 3 3).nx ∧ 0 < (Life2D.new 3 3).ny ∧
      (((0 : Nat) : Int) - 1) ^ 2 + (((0 : Nat) : Int) - 1) ^ 2 ≤ (65536 : Int) ^ 2 ∧
      ((Life2D.new 3 3).toggle 1 1 65536).a.getD ((Life2D.new 3 3).idx 0 0) 0 = 0 ∧
      ((Life2D.new 3 3).toggle 1 1 65536).a = [0, 0, 0, 0, 1, 0, 0, 0, 0] := by
  decide

/-- C7, amended: for a centre `(ix,iy)` inside the grid and `0 < radius <= 32767` on a grid
with `nx + radius < 2^31` and `ny + radius < 2^31` (no operation of the branch then leaves
the range of `int`), `Life2D::toggle` sets to `1` every grid cell `(x,y)` with
`(x-ix)^2 + (y-iy)^2 <= radius^2`, the outermost rows and columns included, and leaves every
other grid cell, `nx`, `ny`, the scratch buffer and the length of the field as they
were. -/
theorem C7_area_toggle_sets_int_range (s : Life2D) (ix iy radius : Int) (hwf : s.WF)
    (hix : 0 ≤ ix ∧ ix < (s.nx : Int)) (hiy : 0 ≤ iy ∧ iy < (s.ny : Int)) (hr : 0 < radius)
    (hr2 : radius ≤ 32767) (hnx : (s.nx : Int) + radius < 2 ^ 31)
    (hny : (s.ny : Int) + radius < 2 ^ 31)
    (x y : Nat) (hx : x < s.nx) (hy : y < s.ny) :
    (((x : Int) - ix) ^ 2 + ((y : Int) - iy) ^ 2 ≤ radius ^ 2 →
        (s.toggle ix iy radius).a.getD (s.idx x y) 0 = 1) ∧
      (¬ (((x : Int) - ix) ^ 2 + ((y : Int) - iy) ^ 2 ≤ radius ^ 2) →
        (s.toggle ix iy radius).a.getD (s.idx x y) 0 = s.a.getD (s.idx x y) 0) ∧
      (s.toggle ix iy radius).nx = s.nx ∧ (s.toggle ix iy radius).ny = s.ny ∧
      (s.toggle ix iy radius).b = s.b ∧
      (s.toggle ix iy radius).a.length = s.a.length := by
  have hwx : wrapInt (s.nx : Int) = (s.nx : Int) := wrapInt_eq _ (by omega)
  have hwy : wrapInt (s.ny : Int) = (s.ny : Int) := wrapInt_eq _ (by omega)
  have hspec := Life2D.toggle_area_spec s ix iy radius (by rw [hwx, hwy]; omega) hr
  rw [Life2D.scanLo_eq ix radius (by omega) (by omega), Life2D.scanLo_eq iy radius (by omega) (by omega),
    Life2D.scanHi_eq s.nx ix radius (by omega) (by omega) (by omega) (by omega),
    Life2D.scanHi_eq s.ny iy radius (by omega) (by omega) (by omega) (by omega)] at hspec
  obtain ⟨h1, h2, h3, h4, h5⟩ := hspec
  have hk : s.idx x y < s.a.length := by rw [hwf.1]; exact idx_lt _ _ x y hx hy
  refine ⟨?_, ?_, h1, h2, h3, h4⟩
  · intro hd
    have hxb : -radius ≤ (x : Int) - ix ∧ (x : Int) - ix ≤ radius := by
      apply abs_le_of_sq_le_sq' _ (le_of_lt hr)
      nlinarith [sq_nonneg ((y : Int) - iy)]
    have hyb : -radius ≤ (y : Int) - iy ∧ (y : Int) - iy ≤ radius := by
      apply abs_le_of_sq_le_sq' _ (le_of_lt hr)
      nlinarith [sq_nonneg ((x : Int) - ix)]
    have hd' : ((x : Int) - ix) * ((x : Int) - ix) + ((y : Int) - iy) * ((y : Int) - iy)
        ≤ radius * radius := by
      rw [sq, sq, sq] at hd; exact hd
    have hmy : (y : Int) ∈ intRange (max 0 (iy - radius)) (min (s.ny : Int) (iy + radius + 1)) :=
      (mem_intRange _ _ _).2 (by omega)
    have hmx : (x : Int) ∈ intRange (max 0 (ix - radius)) (min (s.nx : Int) (ix + radius + 1)) :=
      (mem_intRange _ _ _).2 (by omega)
    have hidx : s.idx x y = s.idx (x : Int).toNat (y : Int).toNat := by
      rw [Int.toNat_natCast, Int.toNat_natCast]
    have := (h5 (s.idx x y)).1 hk ⟨(y : Int), hmy, (x : Int), hmx,
      (Life2D.toggleHit_iff ix iy radius x y ⟨le_of_lt hr, hr2⟩ hxb hyb).2 hd', hidx⟩
    rw [List.getD_eq_getElem?_getD, this]; rfl
  · intro hd
    have := (h5 (s.idx x y)).2 (by
      rintro y' hy' ⟨x', hx', hc, he⟩
      have hy'' := (mem_intRange _ _ _).1 hy'
      have hx'' := (mem_intRange _ _ _).1 hx'
      have := idx_inj s.nx x y x'.toNat y'.toNat hx (by omega) he
      have ex : (x : Int) = x' := by omega
      have ey : (y : Int) = y' := by omega
      apply hd
      rw [ex, ey, sq, sq, sq]
      exact (Life2D.toggleHit_iff ix iy radius x' y' ⟨le_of_lt hr, hr2⟩ (by omega) (by omega)).1 hc)
    rw [List.getD_eq_getElem?_getD, this, List.getD_eq_getElem?_getD]

/-- Witness of C7: `toggle(0, 0, 1)` on a `3 x 3` grid sets the cell `(0,1)` of the first
column. -/
theorem C7_area_toggle_sets_int_range_witness :
    (Life2D.mk 3 3 [0, 1, 0, 0, 1, 0, 0, 1, 0] (List.replicate 9 7)).WF ∧
      ((Life2D.mk 3 3 [0, 1, 0, 0, 1, 0, 0, 1, 0] (List.replicate 9 7)).toggle 0 0 1).a.getD
        ((Life2D.mk 3 3 [0, 1, 0, 0, 1, 0, 0, 1, 0] (List.replicate 9 7)).idx 0 1) 0 = 1 :=
  ⟨by decide,
    (C7_area_toggle_sets_int_range (Life2D.mk 3 3 [0, 1, 0, 0, 1, 0, 0, 1, 0] (List.replicate 9 7))
      0 0 1 (by decide) (by decide) (by decide) (by decide) (by decide) (by decide) (by decide)
      0 1 (by decide) (by decide)).1
      (by decide)⟩

/-! ## C8: the point branch of `Life2D::toggle` -/

/-- C8: applying `Life2D::toggle(ix, iy, 0)` twice gives back the state it started from,
and one application keeps `nx`, `ny`, the scratch buffer and every cell `(x,y)` of the grid
other than `(ix,iy)`. -/
theorem C8_point_toggle_involution (s : Life2D) (ix iy : Int) :
    (s.toggle ix iy 0).toggle ix iy 0 = s ∧
      (s.toggle ix iy 0).nx = s.nx ∧ (s.toggle ix iy 0).ny = s.ny ∧
      (s.toggle ix iy 0).b = s.b ∧ (s.toggle ix iy 0).a.length = s.a.length ∧
      (∀ x y, x < s.nx → y < s.ny → ((x : Int) ≠ ix ∨ (y : Int) ≠ iy) →
        (s.toggle ix iy 0).a.getD (s.idx x y) 0 = s.a.getD (s.idx x y) 0) := by
  by_cases hout : ix < 0 ∨ iy < 0 ∨ ix ≥ wrapInt s.nx ∨ iy ≥ wrapInt s.ny
  · have h1 : s.toggle ix iy 0 = s := by unfold Life2D.toggle; rw [if_pos hout]
    rw [h1, h1]
    exact ⟨rfl, rfl, rfl, rfl, rfl, fun _ _ _ _ _ => rfl⟩
  · have h1 : s.toggle ix iy 0 = Life2D.mk s.nx s.ny (s.a.set (s.idx ix.toNat iy.toNat)
        (Nat.xor (s.a.getD (s.idx ix.toNat iy.toNat) 0) 1)) s.b := by
      unfold Life2D.toggle; rw [if_neg hout, if_pos (le_refl 0)]
    refine ⟨?_, by rw [h1], by rw [h1], by rw [h1], by rw [h1]; simp, ?_⟩
    · have hout2 : ¬ (ix < 0 ∨ iy < 0 ∨ ix ≥ wrapInt (s.toggle ix iy 0).nx
          ∨ iy ≥ wrapInt (s.toggle ix iy 0).ny) := by rw [h1]; exact hout
      have h2 : (s.toggle ix iy 0).toggle ix iy 0 = Life2D.mk (s.toggle ix iy 0).nx
          (s.toggle ix iy 0).ny
          ((s.toggle ix iy 0).a.set ((s.toggle ix iy 0).idx ix.toNat iy.toNat)
            (Nat.xor ((s.toggle ix iy 0).a.getD
              ((s.toggle ix iy 0).idx ix.toNat iy.toNat) 0) 1)) (s.toggle ix iy 0).b := by
        generalize s.toggle ix iy 0 = t at hout2 ⊢
        unfold Life2D.toggle; rw [if_neg hout2, if_pos (le_refl 0)]
      rw [h2, h1]
      simp only [Life2D.idx]
      generalize iy.toNat * s.nx + ix.toNat = k
      obtain ⟨nx, ny, a, b⟩ := s
      simp only [Life2D.mk.injEq, true_and, and_true]
      rw [List.set_set]
      by_cases hk : k < a.length
      · rw [List.getD_eq_getElem?_getD, List.getElem?_set_self hk, Option.getD_some,
          xor_one_xor_one, List.getD_eq_getElem?_getD, List.getElem?_eq_getElem hk,
          Option.getD_some, set_same a k hk]
      · rw [List.set_eq_of_length_le (by omega)]
    · intro x y hx _ hne
      rw [h1]
      have hk : s.idx ix.toNat iy.toNat ≠ s.idx x y := by
        intro h
        have hwx := wrapInt_le s.nx
        have := idx_inj s.nx ix.toNat iy.toNat x y (by omega) hx h
        omega
      simp only [List.getD_eq_getElem?_getD]
      rw [List.getElem?_set_ne hk]

/-- Witness of C8: toggling the cell `(2,1)`, of value `5`, on a `3 x 2` grid. -/
theorem C8_point_toggle_involution_witness :
    ((Life2D.mk 3 2 [0, 1, 0, 0, 1, 5] (List.replicate 6 0)).toggle 2 1 0).toggle 2 1 0
        = Life2D.mk 3 2 [0, 1, 0, 0, 1, 5] (List.replicate 6 0) ∧
      ((Life2D.mk 3 2 [0, 1, 0, 0, 1, 5] (List.replicate 6 0)).toggle 2 1 0).a.getD
          ((Life2D.mk 3 2 [0, 1, 0, 0, 1, 5] (List.replicate 6 0)).idx 1 1) 0 = 1 :=
  ⟨(C8_point_toggle_involution (Life2D.mk 3 2 [0, 1, 0, 0, 1, 5] (List.replicate 6 0)) 2 1).1,
    (C8_point_toggle_involution (Life2D.mk 3 2 [0, 1, 0, 0, 1, 5]
      (List.replicate 6 0)) 2 1).2.2.2.2.2 1 1 (by decide) (by decide) (by decide)⟩

/-! ## C9: the linear index -/

/-- The exact map `(i,j) -> j*nx + i` on `i < nx`, `j < ny` is injective, takes its values
below `nx*ny` and reaches every `k < nx*ny`. -/
theorem idx_exact_bijection (nx ny : Nat) (hnx : 1 ≤ nx) :
    (∀ i j i' j', i < nx → j < ny → i' < nx → j' < ny →
        j * nx + i = j' * nx + i' → i = i' ∧ j = j') ∧
      (∀ i j, i < nx → j < ny → j * nx + i < nx * ny) ∧
      (∀ k, k < nx * ny → ∃ i j, i < nx ∧ j < ny ∧ j * nx + i = k) := by
  refine ⟨fun i j i' j' hi _ hi' _ h => idx_inj nx i j i' j' hi hi' h,
    fun i j hi hj => idx_lt nx ny i j hi hj, fun k hk => ?_⟩
  refine ⟨k % nx, k / nx, Nat.mod_lt _ (by omega), ?_, ?_⟩
  · exact (Nat.div_lt_iff_lt_mul (by omega)).2 (by rw [Nat.mul_comm]; exact hk)
  · rw [Nat.mul_comm]; exact Nat.div_add_mod k nx

/-- On a grid of fewer than `2^64` cells the 64-bit index of a cell is the exact one, and
the map is a bijection onto the numbers below `nx*ny`. -/
theorem idx64_bijection (nx ny : Nat) (hnx : 1 ≤ nx) (hsz : nx * ny < 2 ^ 64) :
    (∀ i j, i < nx → j < ny → (j * nx + i) % 2 ^ 64 = j * nx + i) ∧
      (∀ i j i' j', i < nx → j < ny → i' < nx → j' < ny →
        (j * nx + i) % 2 ^ 64 = (j' * nx + i') % 2 ^ 64 → i = i' ∧ j = j') ∧
      (∀ i j, i < nx → j < ny → (j * nx + i) % 2 ^ 64 < nx * ny) ∧
      (∀ k, k < nx * ny → ∃ i j, i < nx ∧ j < ny ∧ (j * nx + i) % 2 ^ 64 = k) := by
  obtain ⟨hinj, hlt, hsur⟩ := idx_exact_bijection nx ny hnx
  have hex : ∀ i j, i < nx → j < ny → (j * nx + i) % 2 ^ 64 = j * nx + i :=
    fun i j hi hj => Nat.mod_eq_of_lt (lt_trans (hlt i j hi hj) hsz)
  refine ⟨hex, ?_, ?_, ?_⟩
  · intro i j i' j' hi hj hi' hj' h
    rw [hex i j hi hj, hex i' j' hi' hj'] at h
    exact hinj i j i' j' hi hj hi' hj' h
  · intro i j hi hj
    rw [hex i j hi hj]
    exact hlt i j hi hj
  · intro k hk
    obtain ⟨i, j, hi, hj, e⟩ := hsur k hk
    exact ⟨i, j, hi, hj, by rw [hex i j hi hj]; exact e⟩

/-- The subscript `Grid.idx` of the engines is the 64-bit index of `Grid::idx` for every
cell of a grid of fewer than `2^64` cells. -/
theorem Grid.grid_idx64_eq_idx (g : Grid) (hg : g.nx * g.ny < 2 ^ 64) (i j : Nat) (hi : i < g.nx)
    (hj : j < g.ny) : g.idx64 i j = g.idx i j :=
  Nat.mod_eq_of_lt (lt_trans (idx_lt g.nx g.ny i j hi hj) hg)

/-- The subscript `Life2D.idx` of the engine is the 64-bit index of `Life2D::idx` for every
cell of a grid of fewer than `2^64` cells. -/
theorem Life2D.life_idx64_eq_idx (s : Life2D) (hs : s.nx * s.ny < 2 ^ 64) (i j : Nat)
    (hi : i < s.nx) (hj : j < s.ny) : s.idx64 i j = s.idx i j :=
  Nat.mod_eq_of_lt (lt_trans (idx_lt s.nx s.ny i j hi hj) hs)

/-- C9, counterexample: on a grid with `nx = 2^63`, `ny = 4` (so `nx >= 1`, `ny >= 1`) the
cells `(0,2)` and `(0,0)` have the same index: `2*nx` is `2^64`, which the 64-bit
`std::size_t` holds as `0`.  The index computed by `Grid::idx` and by `Life2D::idx` is not
injective there; the size `nx*ny` of such an object is `0` on 64 bits, so its fields are
empty. -/
theorem C9_idx64_collision :
    (1 ≤ (Grid.new (2 ^ 63) 4).nx ∧ 1 ≤ (Grid.new (2 ^ 63) 4).ny) ∧
      (0 < (Grid.new (2 ^ 63) 4).nx ∧ 2 < (Grid.new (2 ^ 63) 4).ny) ∧
      (Grid.new (2 ^ 63) 4).idx64 0 2 = (Grid.new (2 ^ 63) 4).idx64 0 0 ∧
      (Life2D.mk (2 ^ 63) 4 [] []).idx64 0 2 = (Life2D.mk (2 ^ 63) 4 [] []).idx64 0 0 ∧
      ((Grid.new (2 ^ 63) 4).nx * (Grid.new (2 ^ 63) 4).ny) % 2 ^ 64 = 0 := by
  decide

/-- C9, amended: for `nx >= 1` and `ny >= 1` with `nx*ny < 2^64` (the number of cells fits
the 64-bit `std::size_t`) the index computed by `Grid::idx` and by `Life2D::idx` is
`j*nx + i` without wrap-around for every cell `i < nx`, `j < ny`, and restricted to these
cells it is injective, takes its values below `nx*ny`, and reaches every `k < nx*ny`. -/
theorem C9_idx64_bijection_in_range (g : Grid) (s : Life2D) (hgx : 1 ≤ g.nx) (hgy : 1 ≤ g.ny)
    (hg : g.nx * g.ny < 2 ^ 64) (hsx : 1 ≤ s.nx) (hsy : 1 ≤ s.ny)
    (hs : s.nx * s.ny < 2 ^ 64) :
    ((∀ i j, i < g.nx → j < g.ny → g.idx64 i j = j * g.nx + i) ∧
        (∀ i j i' j', i < g.nx → j < g.ny → i' < g.nx → j' < g.ny →
          g.idx64 i j = g.idx64 i' j' → i = i' ∧ j = j') ∧
        (∀ i j, i < g.nx → j < g.ny → g.idx64 i j < g.nx * g.ny) ∧
        (∀ k, k < g.nx * g.ny → ∃ i j, i < g.nx ∧ j < g.ny ∧ g.idx64 i j = k)) ∧
      ((∀ i j, i < s.nx → j < s.ny → s.idx64 i j = j * s.nx + i) ∧
        (∀ i j i' j', i < s.nx → j < s.ny → i' < s.nx → j' < s.ny →
          s.idx64 i j = s.idx64 i' j' → i = i' ∧ j = j') ∧
        (∀ i j, i < s.nx → j < s.ny → s.idx64 i j < s.nx * s.ny) ∧
        (∀ k, k < s.nx * s.ny → ∃ i j, i < s.nx ∧ j < s.ny ∧ s.idx64 i j = k)) := by
  have _h := And.intro hgy hsy
  obtain ⟨g1, g2, g3, g4⟩ := idx64_bijection g.nx g.ny hgx hg
  obtain ⟨s1, s2, s3, s4⟩ := idx64_bijection s.nx s.ny hsx hs
  exact ⟨⟨g1, g2, g3, g4⟩, ⟨s1, s2, s3, s4⟩⟩

/-- Witness of C9: the `3 x 2` grid. -/
theorem C9_idx64_bijection_in_range_witness :
    (1 ≤ (Grid.new 3 2).nx ∧ 1 ≤ (Grid.new 3 2).ny ∧
        (Grid.new 3 2).nx * (Grid.new 3 2).ny < 2 ^ 64 ∧ 1 ≤ (Life2D.new 3 2).nx ∧
        1 ≤ (Life2D.new 3 2).ny ∧ (Life2D.new 3 2).nx * (Life2D.new 3 2).ny < 2 ^ 64) ∧
      (Grid.new 3 2).idx64 2 1 < (Grid.new 3 2).nx * (Grid.new 3 2).ny ∧
      (∃ i j, i < (Life2D.new 3 2).nx ∧ j < (Life2D.new 3 2).ny ∧
        (Life2D.new 3 2).idx64 i j = 5) :=
  ⟨by decide,
    (C9_idx64_bijection_in_range (Grid.new 3 2) (Life2D.new 3 2) (by decide) (by decide)
      (by decide) (by decide) (by decide) (by decide)).1.2.2.1 2 1 (by decide) (by decide),
    (C9_idx64_bijection_in_range (Grid.new 3 2) (Life2D.new 3 2) (by decide) (by decide)
      (by decide) (by decide) (by decide) (by decide)).2.2.2.2 5 (by decide)⟩

/-! ## C10: the constructor of `Grid` -/

/-- The leading bit of a 64-bit integer is at a position of at most `64`. -/
theorem leadingBit_le (n : Nat) : leadingBit n ≤ 64 := by
  unfold leadingBit
  exact le_trans (List.length_filter_le _ _) (by rw [List.length_range])

/-- The conversion to `double` gives `0` for `0` only. -/
theorem toDouble_eq_zero (n : Nat) : toDouble n = 0 ↔ n = 0 := by
  unfold toDouble
  by_cases h : n < 2 ^ 53
  · rw [if_pos h]
  · rw [if_neg h]
    have he : leadingBit n - 52 ≤ 12 := by have := leadingBit_le n; omega
    have hp : 2 ^ (leadingBit n - 52) ≤ 2 ^ 12 := Nat.pow_le_pow_right (by decide) he
    have hpos : 0 < 2 ^ (leadingBit n - 52) := Nat.pow_pos (by decide)
    have hq : 0 < n / 2 ^ (leadingBit n - 52) :=
      Nat.div_pos (le_trans hp (by omega)) hpos
    constructor
    · intro h0
      exfalso
      simp only at h0
      rcases Nat.mul_eq_zero.1 h0 with h1 | h1
      · split_ifs at h1
        omega
      · omega
    · intro h0; omega

/-- The divisor of the constructor is `0` for the size `1` only. -/
theorem Grid.spacingDivisor_eq_zero (n : Nat) (hn : n < 2 ^ 64) :
    Grid.spacingDivisor n = 0 ↔ n = 1 := by
  unfold Grid.spacingDivisor
  rw [toDouble_eq_zero]
  unfold sizeSub
  omega

/-- The divisor of the constructor for a size from `2` to `2^53` is `n-1`. -/
theorem Grid.spacingDivisor_exact (n : Nat) (h2 : 2 ≤ n) (hn : n ≤ 2 ^ 53) :
    Grid.spacingDivisor n = n - 1 := by
  have hs : sizeSub n 1 = n - 1 := by unfold sizeSub; omega
  unfold Grid.spacingDivisor toDouble
  rw [hs, if_pos (by omega)]

/-- The spacing computed by the constructor: infinite for the size `1` only; `1/(n-1)` for a
size from `2` to `2^53`; `2^-64` for the size `0`. -/
theorem Grid.spacing_spec (n : Nat) (hn : n < 2 ^ 64) :
    (Grid.spacing n = Spacing.infinite ↔ n = 1) ∧
      (2 ≤ n → n ≤ 2 ^ 53 → Grid.spacing n = Spacing.finite (1 / ((n : ℚ) - 1))) ∧
      (n = 0 → Grid.spacing n = Spacing.finite (1 / 2 ^ 64)) ∧
      (n ≠ 1 → Grid.spacing n = Spacing.finite (Grid.spacing n).value) := by
  have hz := Grid.spacingDivisor_eq_zero n hn
  refine ⟨?_, ?_, ?_, ?_⟩
  · unfold Grid.spacing
    constructor
    · intro h
      by_cases h0 : Grid.spacingDivisor n = 0
      · exact hz.1 h0
      · rw [if_neg h0] at h; exact absurd h (by simp)
    · intro h
      rw [if_pos (hz.2 h)]
  · intro h2 h53
    unfold Grid.spacing
    rw [if_neg (fun h0 => by have := hz.1 h0; omega), Grid.spacingDivisor_exact n h2 h53,
      Nat.cast_sub (by omega), Nat.cast_one]
  · intro h0
    subst h0
    have hd : Grid.spacingDivisor 0 = 2 ^ 64 := by decide
    unfold Grid.spacing
    rw [hd, if_neg (by decide)]
    norm_num
  · intro h1
    unfold Grid.spacing
    rw [if_neg (fun h0 => h1 (hz.1 h0))]
    rfl

/-- C10, counterexample: the constructor accepts the sizes `1 x 1` and `0 x 5` and stores
them as given.  For `1 x 1` the divisor `nx-1` is `0` and both spacings are infinite; for
`0 x 5` the unsigned `nx-1` is the wrapped `2^64 - 1`, the divisor `double(nx-1)` is `2^64`
and `hx` is `2^-64`; `Heat2D` and `Wave2D` are built on that grid. -/
theorem C10_grid_constructs_degenerate_size :
    Grid.construct 1 1 = ⟨1, 1, Spacing.infinite, Spacing.infinite⟩ ∧
      sizeSub 1 1 = 0 ∧ Grid.spacingDivisor 1 = 0 ∧
      Grid.construct 0 5 = ⟨0, 5, Spacing.finite (1 / 2 ^ 64), Spacing.finite (1 / 4)⟩ ∧
      sizeSub 0 1 = 2 ^ 64 - 1 ∧ Grid.spacingDivisor 0 = 2 ^ 64 ∧
      (Heat2D.new 0 5).g = ⟨0, 5, 1 / 2 ^ 64, 1 / 4⟩ ∧
      (Wave2D.new 0 5).g = ⟨0, 5, 1 / 2 ^ 64, 1 / 4⟩ ∧
      ¬ (∀ nx ny, (nx < 2 ∨ ny < 2) →
        2 ≤ (Grid.construct nx ny).nx ∧ 2 ≤ (Grid.construct nx ny).ny) := by
  have h0 := (Grid.spacing_spec 0 (by decide)).2.2.1 rfl
  have h5 := (Grid.spacing_spec 5 (by decide)).2.1 (by decide) (by decide)
  have hg : Grid.new 0 5 = ⟨0, 5, 1 / 2 ^ 64, 1 / 4⟩ := by
    simp only [Grid.new, Grid.construct, h0, h5, Spacing.value]
    norm_num
  refine ⟨by decide, by decide, by decide, ?_, by decide, by decide, ?_, ?_, ?_⟩
  · unfold Grid.construct
    rw [h0, h5]
    norm_num
  · simp only [Heat2D.new, hg]
  · simp only [Wave2D.new, hg]
  · intro h
    have := (h 1 1 (Or.inl (by decide))).1
    exact absurd this (by decide)

/-- C10, amended: the constructor of `Grid` validates nothing.  For all sizes `nx`, `ny` of
the 64-bit `std::size_t` it constructs an object that stores `nx` and `ny` as given; `hx` is
the infinite quotient of a division by zero exactly when `nx = 1`, it is `1/(nx-1)` for
`2 <= nx <= 2^53`, and for `nx = 0` it is `2^-64`, the quotient by the wrapped divisor; `hy`
is determined by `ny` in the same way.  For sizes other than `1` the spacings are finite and
the constructed object is the grid on which `Heat2D` and `Wave2D` are built. -/
theorem C10_grid_construct_no_validation (nx ny : Nat) (hnx : nx < 2 ^ 64)
    (hny : ny < 2 ^ 64) :
    (Grid.construct nx ny).nx = nx ∧ (Grid.construct nx ny).ny = ny ∧
      ((Grid.construct nx ny).hx = Spacing.infinite ↔ nx = 1) ∧
      ((Grid.construct nx ny).hy = Spacing.infinite ↔ ny = 1) ∧
      (2 ≤ nx → nx ≤ 2 ^ 53 →
        (Grid.construct nx ny).hx = Spacing.finite (1 / ((nx : ℚ) - 1))) ∧
      (2 ≤ ny → ny ≤ 2 ^ 53 →
        (Grid.construct nx ny).hy = Spacing.finite (1 / ((ny : ℚ) - 1))) ∧
      (nx = 0 → (Grid.construct nx ny).hx = Spacing.finite (1 / 2 ^ 64)) ∧
      (ny = 0 → (Grid.construct nx ny).hy = Spacing.finite (1 / 2 ^ 64)) ∧
      (nx ≠ 1 → ny ≠ 1 →
        Grid.construct nx ny = ⟨(Heat2D.new nx ny).g.nx, (Heat2D.new nx ny).g.ny,
          Spacing.finite (Heat2D.new nx ny).g.hx, Spacing.finite (Heat2D.new nx ny).g.hy⟩ ∧
        (Wave2D.new nx ny).g = (Heat2D.new nx ny).g) := by
  obtain ⟨x1, x2, x3, x4⟩ := Grid.spacing_spec nx hnx
  obtain ⟨y1, y2, y3, y4⟩ := Grid.spacing_spec ny hny
  have cx : (Grid.construct nx ny).hx = Grid.spacing nx := by simp only [Grid.construct]
  have cy : (Grid.construct nx ny).hy = Grid.spacing ny := by simp only [Grid.construct]
  have hhx : (Heat2D.new nx ny).g.hx = (Grid.spacing nx).value := by
    simp only [Heat2D.new, Grid.new, Grid.construct]
  have hhy : (Heat2D.new nx ny).g.hy = (Grid.spacing ny).value := by
    simp only [Heat2D.new, Grid.new, Grid.construct]
  have hhn : (Heat2D.new nx ny).g.nx = nx ∧ (Heat2D.new nx ny).g.ny = ny := ⟨rfl, rfl⟩
  have hwg : (Wave2D.new nx ny).g = (Heat2D.new nx ny).g := rfl
  rw [cx, cy, hhx, hhy, hhn.1, hhn.2]
  refine ⟨rfl, rfl, x1, y1, x2, y2, x3, y3, fun h1 h2 => ⟨?_, hwg⟩⟩
  rw [← x4 h1, ← y4 h2]
  simp only [Grid.construct]

/-- Witness of the amended C10: the sizes `5 x 1`, with `hx = 1/4` and an infinite `hy`. -/
theorem C10_grid_construct_no_validation_witness :
    ((5 : Nat) < 2 ^ 64 ∧ (1 : Nat) < 2 ^ 64) ∧
      (Grid.construct 5 1).nx = 5 ∧ (Grid.construct 5 1).ny = 1 ∧
      (Grid.construct 5 1).hx = Spacing.finite (1 / (((5 : Nat) : ℚ) - 1)) ∧
      (Grid.construct 5 1).hy = Spacing.infinite :=
  ⟨by decide, (C10_grid_construct_no_validation 5 1 (by decide) (by decide)).1,
    (C10_grid_construct_no_validation 5 1 (by decide) (by decide)).2.1,
    (C10_grid_construct_no_validation 5 1 (by decide) (by decide)).2.2.2.2.1
      (by decide) (by decide),
    (C10_grid_construct_no_validation 5 1 (by decide) (by decide)).2.2.2.1.2 rfl⟩

/-! ## C11, C12: the state of rest of the two integrators -/

/-- Reading an all-zero field gives `0` at every index. -/
theorem getD_of_all_zero (u : List ℚ) (h : ∀ v ∈ u, v = 0) (k : Nat) : u.getD k 0 = 0 := by
  rw [List.getD_eq_getElem?_getD]
  by_cases hk : k < u.length
  · rw [List.getElem?_eq_getElem hk, Option.getD_some]
    exact h _ (List.getElem_mem _)
  · rw [List.getElem?_eq_none (by omega)]
    rfl

/-- The value `Heat2D::step` computes from an all-zero field is `0`. -/
theorem Heat2D.heat_nextCell_of_zero (s : Heat2D) (h : ∀ v ∈ s.u, v = 0) (i j : Nat) :
    s.nextCell i j = 0 := by
  unfold Heat2D.nextCell
  by_cases hb : i = 0 ∨ j = 0 ∨ i = s.g.nx - 1 ∨ j = s.g.ny - 1
  · simp only [if_pos hb]
  · simp only [if_neg hb, getD_of_all_zero s.u h]
    ring

/-- The value `Wave2D::step` computes from all-zero `u` and `u_prev` is `0`. -/
theorem Wave2D.wave_nextCell_of_zero (s : Wave2D) (h : ∀ v ∈ s.u, v = 0)
    (hp : ∀ v ∈ s.u_prev, v = 0) (i j : Nat) : s.nextCell i j = 0 := by
  unfold Wave2D.nextCell
  by_cases hb : i = 0 ∨ j = 0 ∨ i = s.g.nx - 1 ∨ j = s.g.ny - 1
  · simp only [if_pos hb]
  · simp only [if_neg hb, getD_of_all_zero s.u h, getD_of_all_zero s.u_prev hp]
    ring

/-- Every element of the field computed by `Heat2D::step` is the value computed for a cell. -/
theorem Heat2D.heat_mem_step_u (s : Heat2D) (hn : s.u_next.length = s.g.nx * s.g.ny) (v : ℚ)
    (hv : v ∈ s.step.u) : ∃ i j, i < s.g.nx ∧ j < s.g.ny ∧ v = s.nextCell i j := by
  obtain ⟨k, hk, rfl⟩ := List.getElem_of_mem hv
  have hk2 := hk
  rw [Heat2D.heat_step_length, hn] at hk
  have hnx : 0 < s.g.nx := by
    rcases Nat.eq_zero_or_pos s.g.nx with h0 | h0
    · rw [h0] at hk; omega
    · exact h0
  have hi : k % s.g.nx < s.g.nx := Nat.mod_lt _ hnx
  have hj : k / s.g.nx < s.g.ny := (Nat.div_lt_iff_lt_mul hnx).2 (by rw [Nat.mul_comm]; exact hk)
  have hkk : s.g.idx (k % s.g.nx) (k / s.g.nx) = k := by
    unfold Grid.idx; rw [Nat.mul_comm]; exact Nat.div_add_mod k s.g.nx
  have h := Heat2D.heat_step_getElem? s hn (k % s.g.nx) (k / s.g.nx) hi hj
  rw [hkk, List.getElem?_eq_getElem hk2] at h
  exact ⟨k % s.g.nx, k / s.g.nx, hi, hj, Option.some.inj h⟩

/-- Every element of the field computed by `Wave2D::step` is the value computed for a cell. -/
theorem Wave2D.wave_mem_step_u (s : Wave2D) (hn : s.u_next.length = s.g.nx * s.g.ny) (v : ℚ)
    (hv : v ∈ s.step.u) : ∃ i j, i < s.g.nx ∧ j < s.g.ny ∧ v = s.nextCell i j := by
  obtain ⟨k, hk, rfl⟩ := List.getElem_of_mem hv
  have hk2 := hk
  rw [Wave2D.wave_step_length, hn] at hk
  have hnx : 0 < s.g.nx := by
    rcases Nat.eq_zero_or_pos s.g.nx with h0 | h0
    · rw [h0] at hk; omega
    · exact h0
  have hi : k % s.g.nx < s.g.nx := Nat.mod_lt _ hnx
  have hj : k / s.g.nx < s.g.ny := (Nat.div_lt_iff_lt_mul hnx).2 (by rw [Nat.mul_comm]; exact hk)
  have hkk : s.g.idx (k % s.g.nx) (k / s.g.nx) = k := by
    unfold Grid.idx; rw [Nat.mul_comm]; exact Nat.div_add_mod k s.g.nx
  have h := Wave2D.wave_step_getElem? s hn (k % s.g.nx) (k / s.g.nx) hi hj
  rw [hkk, List.getElem?_eq_getElem hk2] at h
  exact ⟨k % s.g.nx, k / s.g.nx, hi, hj, Option.some.inj h⟩

/-- One `Wave2D::step` keeps the engine at rest. -/
theorem Wave2D.atRest_step (s : Wave2D) (h : s.atRest) : s.step.atRest := by
  obtain ⟨hwf, hu, hp⟩ := h
  refine ⟨⟨?_, hwf.1, hwf.2.1⟩, ?_, hu⟩
  · rw [Wave2D.wave_step_length, hwf.2.2]; rfl
  · intro v hv
    obtain ⟨i, j, _, _, rfl⟩ := Wave2D.wave_mem_step_u s hwf.2.2 v hv
    exact Wave2D.wave_nextCell_of_zero s hu hp i j

/-- Any number of `Wave2D::step` keeps the engine at rest. -/
theorem Wave2D.atRest_iterate (n : Nat) (s : Wave2D) (h : s.atRest) :
    (Wave2D.step^[n] s).atRest := by
  induction n generalizing s with
  | zero => exact h
  | succ n ih => rw [Function.iterate_succ_apply]; exact ih _ (Wave2D.atRest_step s h)

/-- C11: zero is a fixed point of the wave integrator.  On a grid with `nx, ny >= 2`, for any
`c` and `dt` and any contents of the scratch field, if `u` and `u_prev` are all zero before
`Wave2D::step` then `u` and `u_prev` are all zero after it; and after `reset()` any number
of steps leaves `u` (and `u_prev`) all zero. -/
theorem C11_wave_zero_fixed_point (s : Wave2D) (hnx : 2 ≤ s.g.nx) (hny : 2 ≤ s.g.ny)
    (hwf : s.WF) :
    ((∀ v ∈ s.u, v = 0) → (∀ v ∈ s.u_prev, v = 0) →
        (∀ v ∈ s.step.u, v = 0) ∧ (∀ v ∈ s.step.u_prev, v = 0) ∧
          s.step.u.length = s.g.nx * s.g.ny) ∧
      (∀ n : Nat, (∀ v ∈ (Wave2D.step^[n] s.reset).u, v = 0) ∧
        (∀ v ∈ (Wave2D.step^[n] s.reset).u_prev, v = 0) ∧
        (Wave2D.step^[n] s.reset).u.length = s.g.nx * s.g.ny) := by
  have _h := And.intro hnx hny
  constructor
  · intro hu hp
    have h := Wave2D.atRest_step s ⟨hwf, hu, hp⟩
    exact ⟨h.2.1, h.2.2, h.1.1⟩
  · intro n
    have hr : s.reset.atRest := by
      refine ⟨⟨?_, ?_, hwf.2.2⟩, ?_, ?_⟩
      · show (s.u.map (fun _ => (0 : ℚ))).length = _
        rw [List.length_map]; exact hwf.1
      · show (s.u_prev.map (fun _ => (0 : ℚ))).length = _
        rw [List.length_map]; exact hwf.2.1
      · intro v hv
        obtain ⟨_, _, rfl⟩ := List.mem_map.1 hv
        rfl
      · intro v hv
        obtain ⟨_, _, rfl⟩ := List.mem_map.1 hv
        rfl
    have h := Wave2D.atRest_iterate n s.reset hr
    have hg : ∀ m (t : Wave2D), (Wave2D.step^[m] t).g = t.g := by
      intro m
      induction m with
      | zero => intro t; rfl
      | succ m ih => intro t; rw [Function.iterate_succ_apply, ih]; rfl
    refine ⟨h.2.1, h.2.2, ?_⟩
    have := h.1.1
    rw [hg n s.reset] at this
    exact this

/-- Witness of C11: the engine `waveRest` for one step, and three steps after the reset of
`waveSample`. -/
theorem C11_wave_zero_fixed_point_witness :
    (2 ≤ waveRest.g.nx ∧ 2 ≤ waveRest.g.ny ∧ waveRest.WF ∧ waveSample.WF) ∧
      (∀ v ∈ waveRest.step.u, v = 0) ∧
      (∀ v ∈ (Wave2D.step^[3] waveSample.reset).u, v = 0) :=
  ⟨by decide,
    ((C11_wave_zero_fixed_point waveRest (by decide) (by decide) (by decide)).1
      (fun _ hv => List.eq_of_mem_replicate hv) (fun _ hv => List.eq_of_mem_replicate hv)).1,
    ((C11_wave_zero_fixed_point waveSample (by decide) (by decide) (by decide)).2 3).1⟩

/-- C12: zero is a fixed point of the heat integrator.  On a grid with `nx, ny >= 2`, for any
`alpha` and `dt` and any contents of the scratch field, if the current field `u` is all zero
before `Heat2D::step` then it is all zero, with `nx*ny` samples, after it. -/
theorem C12_heat_zero_fixed_point (s : Heat2D) (hnx : 2 ≤ s.g.nx) (hny : 2 ≤ s.g.ny)
    (hn : s.u_next.length = s.g.nx * s.g.ny) (hu : ∀ v ∈ s.u, v = 0) :
    (∀ v ∈ s.step.u, v = 0) ∧ s.step.u.length = s.g.nx * s.g.ny := by
  have _h := And.intro hnx hny
  refine ⟨?_, by rw [Heat2D.heat_step_length, hn]⟩
  intro v hv
  obtain ⟨i, j, _, _, rfl⟩ := Heat2D.heat_mem_step_u s hn v hv
  exact Heat2D.heat_nextCell_of_zero s hu i j

/-- Witness of C12: the engine `heatRest`. -/
theorem C12_heat_zero_fixed_point_witness :
    (2 ≤ heatRest.g.nx ∧ 2 ≤ heatRest.g.ny ∧
        heatRest.u_next.length = heatRest.g.nx * heatRest.g.ny) ∧
      (∀ v ∈ heatRest.step.u, v = 0) :=
  ⟨by decide,
    (C12_heat_zero_fixed_point heatRest (by decide) (by decide) (by decide)
      (fun _ hv => List.eq_of_mem_replicate hv)).1⟩

/-! ## C13, C14: the palettes -/

/-- C13: the palette endpoints: `gray(0) = (0,0,0,255)`, `gray(1) = (255,255,255,255)`,
`fire(0) = (0,0,0,255)`, `blue_red(1) = (255,0,0,255)` and `blue_red(0) = (0,0,255,255)`. -/
theorem C13_palette_endpoints :
    gray 0 = (0, 0, 0, 255) ∧ gray 1 = (255, 255, 255, 255) ∧ fire 0 = (0, 0, 0, 255) ∧
      blue_red 1 = (255, 0, 0, 255) ∧ blue_red 0 = (0, 0, 255, 255) := by
  have h255 : toUint8 255 = 255 := by
    unfold toUint8
    rw [if_pos (by norm_num)]
    have : ⌊(255 : ℚ)⌋ = 255 := by exact_mod_cast Int.floor_intCast (255 : ℤ)
    rw [this]; rfl
  have h0 : toUint8 0 = 0 := by
    unfold toUint8
    rw [if_pos (le_refl 0), Int.floor_zero]; rfl
  have c0 : clamp 0 0 1 = 0 := by unfold clamp; norm_num
  have c1 : clamp 1 0 1 = 1 := by unfold clamp; norm_num
  refine ⟨?_, ?_, ?_, ?_, ?_⟩
  · simp only [gray, grayChannel, c0, mul_zero, h0]
  · simp only [gray, grayChannel, c1, mul_one, h255]
  · have hg : max (3 / 2 * ((0 : ℚ) - 3 / 10)) 0 = 0 := max_eq_right (by norm_num)
    have hb : max (3 / 2 * ((0 : ℚ) - 6 / 10)) 0 = 0 := max_eq_right (by norm_num)
    have hm : min (0 : ℚ) 1 = 0 := min_eq_left (by norm_num)
    simp only [fire, fireChannels, c0, mul_zero, hg, hb, hm, h0]
  · simp only [blue_red, blueRedChannels, c1, mul_one, sub_self, mul_zero, h0, h255]
  · simp only [blue_red, blueRedChannels, c0, mul_zero, sub_zero, mul_one, h0, h255]

/-- The function `std::clamp(v, 0, 1)` is `min(max(v,0),1)`. -/
theorem clamp_eq_min_max (v : ℚ) : clamp v 0 1 = min (max v 0) 1 := by
  unfold clamp
  by_cases h0 : v < 0
  · rw [if_pos h0, max_eq_right (le_of_lt h0), min_eq_left (by norm_num)]
  · by_cases h1 : 1 < v
    · rw [if_neg h0, if_pos h1, max_eq_left (not_lt.1 h0), min_eq_right (le_of_lt h1)]
    · rw [if_neg h0, if_neg h1, max_eq_left (not_lt.1 h0), min_eq_left (not_lt.1 h1)]

/-- The value of `std::clamp(v, 0, 1)` lies in `[0,1]`. -/
theorem clamp_mem (v : ℚ) : 0 ≤ clamp v 0 1 ∧ clamp v 0 1 ≤ 1 := by
  unfold clamp
  by_cases h0 : v < 0
  · rw [if_pos h0]; norm_num
  · by_cases h1 : 1 < v
    · rw [if_neg h0, if_pos h1]; norm_num
    · rw [if_neg h0, if_neg h1]; exact ⟨not_lt.1 h0, not_lt.1 h1⟩

/-- Clamping twice is clamping once. -/
theorem clamp_clamp (v : ℚ) : clamp (clamp v 0 1) 0 1 = clamp v 0 1 := by
  have h := clamp_mem v
  generalize clamp v 0 1 = w at h
  unfold clamp
  rw [if_neg (not_lt.2 h.1), if_neg (not_lt.2 h.2)]

/-- A channel value in `[0,255]` is converted to a byte without wrap-around: the byte is
its integer part, at most `255`. -/
theorem toUint8_of_mem (x : ℚ) (h0 : 0 ≤ x) (h1 : x ≤ 255) :
    (toUint8 x : Int) = ⌊x⌋ ∧ toUint8 x ≤ 255 := by
  unfold toUint8
  rw [if_pos h0]
  have hf0 : 0 ≤ ⌊x⌋ := Int.floor_nonneg.2 h0
  have hf1 : ⌊x⌋ ≤ 255 := by
    have : ⌊x⌋ ≤ ⌊(255 : ℚ)⌋ := Int.floor_le_floor h1
    have e : ⌊(255 : ℚ)⌋ = 255 := by exact_mod_cast Int.floor_intCast (255 : ℤ)
    rw [e] at this; exact this
  omega

/-- C14: the palettes clamp their input.  For every scalar `v`, each of `gray`, `fire` and
`blue_red` gives the result it gives at `min(max(v,0),1)`, hence its result at `0` for
`v < 0` and at `1` for `v > 1`; every channel value lies in `[0,255]` before its
conversion to a byte, which is then its integer part; and the alpha channel is `255`. -/
theorem C14_palettes_clamp (v : ℚ) :
    (gray v = gray (min (max v 0) 1) ∧ fire v = fire (min (max v 0) 1) ∧
        blue_red v = blue_red (min (max v 0) 1)) ∧
      (v < 0 → gray v = gray 0 ∧ fire v = fire 0 ∧ blue_red v = blue_red 0) ∧
      (1 < v → gray v = gray 1 ∧ fire v = fire 1 ∧ blue_red v = blue_red 1) ∧
      ((0 ≤ grayChannel v ∧ grayChannel v ≤ 255) ∧
        (0 ≤ (fireChannels v).1 ∧ (fireChannels v).1 ≤ 255) ∧
        (0 ≤ (fireChannels v).2.1 ∧ (fireChannels v).2.1 ≤ 255) ∧
        (0 ≤ (fireChannels v).2.2 ∧ (fireChannels v).2.2 ≤ 255) ∧
        (0 ≤ (blueRedChannels v).1 ∧ (blueRedChannels v).1 ≤ 255) ∧
        (0 ≤ (blueRedChannels v).2 ∧ (blueRedChannels v).2 ≤ 255)) ∧
      ((gray v).1 ≤ 255 ∧ (gray v).2.1 ≤ 255 ∧ (gray v).2.2.1 ≤ 255 ∧
        (fire v).1 ≤ 255 ∧ (fire v).2.1 ≤ 255 ∧ (fire v).2.2.1 ≤ 255 ∧
        (blue_red v).1 ≤ 255 ∧ (blue_red v).2.1 ≤ 255 ∧ (blue_red v).2.2.1 ≤ 255) ∧
      ((gray v).2.2.2 = 255 ∧ (fire v).2.2.2 = 255 ∧ (blue_red v).2.2.2 = 255) := by
  have hcl : ∀ w : ℚ, clamp w 0 1 = clamp v 0 1 →
      gray w = gray v ∧ fire w = fire v ∧ blue_red w = blue_red v := by
    intro w hw
    simp only [gray, grayChannel, fire, fireChannels, blue_red, blueRedChannels, hw]
    exact ⟨trivial, trivial, trivial⟩
  have hc := clamp_mem v
  have hchan : (0 ≤ grayChannel v ∧ grayChannel v ≤ 255) ∧
      (0 ≤ (fireChannels v).1 ∧ (fireChannels v).1 ≤ 255) ∧
      (0 ≤ (fireChannels v).2.1 ∧ (fireChannels v).2.1 ≤ 255) ∧
      (0 ≤ (fireChannels v).2.2 ∧ (fireChannels v).2.2 ≤ 255) ∧
      (0 ≤ (blueRedChannels v).1 ∧ (blueRedChannels v).1 ≤ 255) ∧
      (0 ≤ (blueRedChannels v).2 ∧ (blueRedChannels v).2 ≤ 255) := by
    simp only [grayChannel, fireChannels, blueRedChannels]
    generalize clamp v 0 1 = w at hc
    have hr0 : 0 ≤ min (3 / 2 * w) 1 := le_min (by linarith) (by norm_num)
    have hr1 : min (3 / 2 * w) 1 ≤ 1 := min_le_right _ _
    have hg0 : 0 ≤ min (max (3 / 2 * (w - 3 / 10)) 0) 1 :=
      le_min (le_max_right _ _) (by norm_num)
    have hg1 : min (max (3 / 2 * (w - 3 / 10)) 0) 1 ≤ 1 := min_le_right _ _
    have hb0 : 0 ≤ min (max (3 / 2 * (w - 6 / 10)) 0) 1 :=
      le_min (le_max_right _ _) (by norm_num)
    have hb1 : min (max (3 / 2 * (w - 6 / 10)) 0) 1 ≤ 1 := min_le_right _ _
    refine ⟨⟨?_, ?_⟩, ⟨?_, ?_⟩, ⟨?_, ?_⟩, ⟨?_, ?_⟩, ⟨?_, ?_⟩, ⟨?_, ?_⟩⟩ <;> linarith [hc.1, hc.2]
  refine ⟨?_, ?_, ?_, hchan, ?_, rfl, rfl, rfl⟩
  · have h := hcl (min (max v 0) 1) (by rw [← clamp_eq_min_max, clamp_clamp])
    exact ⟨h.1.symm, h.2.1.symm, h.2.2.symm⟩
  · intro hv
    have h := hcl 0 (by unfold clamp; rw [if_pos hv]; norm_num)
    exact ⟨h.1.symm, h.2.1.symm, h.2.2.symm⟩
  · intro hv
    have h := hcl 1 (by
      unfold clamp
      rw [if_neg (by linarith : ¬ v < 0), if_pos hv]; norm_num)
    exact ⟨h.1.symm, h.2.1.symm, h.2.2.symm⟩
  · obtain ⟨hg, hf1, hf2, hf3, hb1, hb2⟩ := hchan
    exact ⟨(toUint8_of_mem _ hg.1 hg.2).2, (toUint8_of_mem _ hg.1 hg.2).2,
      (toUint8_of_mem _ hg.1 hg.2).2, (toUint8_of_mem _ hf1.1 hf1.2).2,
      (toUint8_of_mem _ hf2.1 hf2.2).2, (toUint8_of_mem _ hf3.1 hf3.2).2,
      (toUint8_of_mem _ hb1.1 hb1.2).2, Nat.zero_le _, (toUint8_of_mem _ hb2.1 hb2.2).2⟩

/-- Witness of C14: the scalar `-2`, clamped to `0`. -/
theorem C14_palettes_clamp_witness :
    (-2 : ℚ) < 0 ∧ gray (-2) = gray 0 ∧ fire (-2) = fire 0 ∧ blue_red (-2) = blue_red 0 :=
  ⟨by norm_num, (C14_palettes_clamp (-2)).2.1 (by norm_num)⟩

/-! ## C15: `Life2D::randomize` -/

/-- The loop of `randomize` does not look at the cells it overwrites: it is the body
applied once per cell. -/
theorem randomize_fold_eq {Rng : Type} (draw : ℚ → Rng → Bool × Rng) (p : ℚ) (L : List Nat)
    (init : List Nat × Rng) :
    L.foldl (Life2D.randomizeCell draw p) init
      = (fun acc => Life2D.randomizeCell draw p acc 0)^[L.length] init :=
  foldl_ignore_iterate (fun acc => Life2D.randomizeCell draw p acc 0) L init

/-- After `n` draws the field under construction has `n` more cells, and stays binary. -/
theorem randomize_iterate_spec {Rng : Type} (draw : ℚ → Rng → Bool × Rng) (p : ℚ) (n : Nat)
    (init : List Nat × Rng) (hb : ∀ v ∈ init.1, v = 0 ∨ v = 1) :
    ((fun acc => Life2D.randomizeCell draw p acc 0)^[n] init).1.length = init.1.length + n ∧
      ∀ v ∈ ((fun acc => Life2D.randomizeCell draw p acc 0)^[n] init).1, v = 0 ∨ v = 1 := by
  induction n generalizing init with
  | zero => exact ⟨rfl, hb⟩
  | succ n ih =>
    rw [Function.iterate_succ_apply]
    have hb2 : ∀ v ∈ (Life2D.randomizeCell draw p init 0).1, v = 0 ∨ v = 1 := by
      intro v hv
      unfold Life2D.randomizeCell at hv
      rcases List.mem_append.1 hv with h | h
      · exact hb v h
      · rw [List.mem_singleton] at h
        rw [h]
        by_cases hd : (draw p init.2).1 = true
        · right; rw [if_pos hd]
        · left; rw [if_neg hd]
    have h := ih (Life2D.randomizeCell draw p init 0) hb2
    refine ⟨?_, h.2⟩
    rw [h.1]
    unfold Life2D.randomizeCell
    rw [List.length_append, List.length_singleton]
    omega

/-- The field left by `randomize(p)` is the random field of as many cells as `a` has. -/
theorem Life2D.randomize_a {Rng : Type} (seed : Nat → Rng) (draw : ℚ → Rng → Bool × Rng)
    (s : Life2D) (p : ℚ) :
    (s.randomize seed draw p).a = randomField seed draw p s.a.length := by
  unfold Life2D.randomize randomField
  simp only [randomize_fold_eq, List.length_range]

/-- C15: `Life2D::randomize` is deterministic and independent of the prior state.  For every
generator, every `p` and every engine whose field has `nx*ny` cells, the field left by
`randomize(p)` is the field drawn for `(nx*ny, p)`; so two engines of the same size get the
same field whatever their prior fields, and a second call in a row changes nothing. -/
theorem C15_randomize_deterministic {Rng : Type} (seed : Nat → Rng)
    (draw : ℚ → Rng → Bool × Rng) (p : ℚ) (s t : Life2D) (hs : s.WF) (ht : t.WF)
    (hsize : s.nx * s.ny = t.nx * t.ny) :
    (s.randomize seed draw p).a = randomField seed draw p (s.nx * s.ny) ∧
      (s.randomize seed draw p).a = (t.randomize seed draw p).a ∧
      (s.randomize seed draw p).randomize seed draw p = s.randomize seed draw p ∧
      (s.randomize seed draw p).a.length = s.nx * s.ny ∧
      (s.randomize seed draw p).nx = s.nx ∧ (s.randomize seed draw p).ny = s.ny ∧
      (s.randomize seed draw p).b = s.b := by
  have h1 : (s.randomize seed draw p).a = randomField seed draw p (s.nx * s.ny) := by
    rw [Life2D.randomize_a, hs.1]
  have h2 : (t.randomize seed draw p).a = randomField seed draw p (s.nx * s.ny) := by
    rw [Life2D.randomize_a, ht.1, hsize]
  have hlen : (s.randomize seed draw p).a.length = s.nx * s.ny := by
    rw [h1]
    unfold randomField
    rw [randomize_fold_eq, List.length_range]
    have := (randomize_iterate_spec draw p (s.nx * s.ny) ([], seed 12345)
      (fun v hv => absurd hv (List.not_mem_nil v))).1
    rw [this]; simp
  refine ⟨h1, h1.trans h2.symm, ?_, hlen, rfl, rfl, rfl⟩
  have h3 : ((s.randomize seed draw p).randomize seed draw p).a
      = (s.randomize seed draw p).a := by
    rw [Life2D.randomize_a, hlen, h1]
  have h4 : (s.randomize seed draw p).randomize seed draw p
      = Life2D.mk s.nx s.ny ((s.randomize seed draw p).randomize seed draw p).a s.b := rfl
  rw [h4, h3]
  rfl

/-- Witness of C15: two `6`-cell engines, `3 x 2` and `2 x 3`, with different fields. -/
theorem C15_randomize_deterministic_witness :
    ((Life2D.mk 3 2 [5, 5, 5, 5, 5, 5] (List.replicate 6 0)).WF ∧
        (Life2D.mk 2 3 [0, 1, 0, 1, 0, 1] (List.replicate 6 0)).WF) ∧
      ((Life2D.mk 3 2 [5, 5, 5, 5, 5, 5] (List.replicate 6 0)).randomize
          (fun n => n) toyDraw (1 / 2)).a
        = ((Life2D.mk 2 3 [0, 1, 0, 1, 0, 1] (List.replicate 6 0)).randomize
          (fun n => n) toyDraw (1 / 2)).a :=
  ⟨by decide,
    (C15_randomize_deterministic (fun n => n) toyDraw (1 / 2)
      (Life2D.mk 3 2 [5, 5, 5, 5, 5, 5] (List.replicate 6 0))
      (Life2D.mk 2 3 [0, 1, 0, 1, 0, 1] (List.replicate 6 0))
      (by decide) (by decide) (by decide)).2.1⟩

/-! ## C16: `Life2D::toggle` outside the grid -/

/-- C16: a toggle whose centre is outside the grid (`ix < 0`, `iy < 0`, `ix >= nx` or
`iy >= ny`) leaves the whole state as it was, for every radius. -/
theorem C16_toggle_out_of_range_noop (s : Life2D) (ix iy radius : Int)
    (hout : ix < 0 ∨ iy < 0 ∨ ix ≥ (s.nx : Int) ∨ iy ≥ (s.ny : Int)) :
    s.toggle ix iy radius = s := by
  have hwx := wrapInt_le s.nx
  have hwy := wrapInt_le s.ny
  unfold Life2D.toggle
  rw [if_pos (by omega)]

/-- Witness of C16: `toggle(3, 1, 2)` on a `3 x 3` grid, whose cell `(2,1)` is at distance
`1` of the centre. -/
theorem C16_toggle_out_of_range_noop_witness :
    ((3 : Int) < 0 ∨ (1 : Int) < 0 ∨
        (3 : Int) ≥ ((Life2D.mk 3 3 [0, 1, 0, 0, 1, 0, 0, 1, 0] (List.replicate 9 7)).nx : Int) ∨
        (1 : Int) ≥ ((Life2D.mk 3 3 [0, 1, 0, 0, 1, 0, 0, 1, 0] (List.replicate 9 7)).ny : Int)) ∧
      ((2 : Int) - 3) ^ 2 + ((1 : Int) - 1) ^ 2 ≤ (2 : Int) ^ 2 ∧
      (Life2D.mk 3 3 [0, 1, 0, 0, 1, 0, 0, 1, 0] (List.replicate 9 7)).toggle 3 1 2
        = Life2D.mk 3 3 [0, 1, 0, 0, 1, 0, 0, 1, 0] (List.replicate 9 7) :=
  ⟨by decide, by decide,
    C16_toggle_out_of_range_noop (Life2D.mk 3 3 [0, 1, 0, 0, 1, 0, 0, 1, 0] (List.replicate 9 7))
      3 1 2 (by decide)⟩

/-! ## C17: the frame of `paint` -/

/-- A loop whose iterations add `amp` to disjoint sets of cells: a cell picked by some
iteration ends with `amp` added once, every other cell is unchanged. -/
theorem foldl_add {γ : Type} (amp : ℚ) (g : List ℚ → γ → List ℚ) (P : γ → Nat → Prop)
    (ys : List γ)
    (hhit : ∀ l, ∀ y ∈ ys, ∀ k, P y k → (g l y)[k]? = (l[k]?).map (fun v => v + amp))
    (hmiss : ∀ l, ∀ y ∈ ys, ∀ k, ¬ P y k → (g l y)[k]? = l[k]?)
    (hdisj : ys.Pairwise (fun y z => ∀ k, P y k → ¬ P z k)) :
    ∀ l0 k, ((∃ y ∈ ys, P y k) → (ys.foldl g l0)[k]? = (l0[k]?).map (fun v => v + amp)) ∧
      ((∀ y ∈ ys, ¬ P y k) → (ys.foldl g l0)[k]? = l0[k]?) := by
  induction ys with
  | nil =>
    intro l0 k
    refine ⟨?_, fun _ => rfl⟩
    rintro ⟨y, hy, _⟩
    cases hy
  | cons y ys ih =>
    intro l0 k
    have hy : y ∈ y :: ys := List.mem_cons_self _ _
    obtain ⟨hfirst, hrest⟩ := List.pairwise_cons.1 hdisj
    have ih1 := ih (fun l z hz => hhit l z (List.mem_cons_of_mem _ hz))
      (fun l z hz => hmiss l z (List.mem_cons_of_mem _ hz)) hrest (g l0 y) k
    rw [List.foldl_cons]
    constructor
    · intro hex
      by_cases hp : P y k
      · rw [ih1.2 (fun z hz => hfirst z hz k hp)]
        exact hhit l0 y hy k hp
      · have hex2 : ∃ z ∈ ys, P z k := by
          obtain ⟨z, hz, hpz⟩ := hex
          rcases List.mem_cons.1 hz with rfl | hz'
          · exact absurd hpz hp
          · exact ⟨z, hz', hpz⟩
        rw [ih1.1 hex2, hmiss l0 y hy k hp]
    · intro hnone
      rw [ih1.2 (fun z hz => hnone z (List.mem_cons_of_mem _ hz))]
      exact hmiss l0 y hy k (hnone y hy)

/-- The counter of an `int` loop takes each of its values once. -/
theorem nodup_intRange (lo hi : Int) : (intRange lo hi).Nodup := by
  unfold intRange
  refine List.Nodup.map ?_ (List.nodup_range _)
  intro a b h
  simp only at h
  omega

/-- Adding `amp` in place at `k`: the cell `k` gains `amp`, when the field has it. -/
theorem getElem?_set_add (l : List ℚ) (k : Nat) (amp : ℚ) :
    (l.set k (l.getD k 0 + amp))[k]? = (l[k]?).map (fun v => v + amp) := by
  by_cases hk : k < l.length
  · rw [List.getElem?_set_self hk, List.getD_eq_getElem?_getD, List.getElem?_eq_getElem hk]
    rfl
  · rw [List.set_eq_of_length_le (by omega), List.getElem?_eq_none (by omega)]
    rfl

/-- The two loops of `paint`, for a loop body `cell` that adds `amp` at `y*nx + x` when
`(x,y)` is within the disc: the cells `y*nx + x` of the scanned positions within the disc
gain `amp` once, every other cell is unchanged. -/
theorem paint_loops_spec (nx ny : Nat) (ix iy radius : Int) (amp : ℚ)
    (cell : Int → List ℚ → Int → List ℚ)
    (hcell : ∀ y u x, cell y u x =
      if (x - ix) * (x - ix) + (y - iy) * (y - iy) ≤ radius * radius then
        u.set (y.toNat * nx + x.toNat) (u.getD (y.toNat * nx + x.toNat) 0 + amp)
      else u) (u0 : List ℚ) (k : Nat) :
    ((∃ y ∈ intRange (max 1 (iy - radius)) (min ((ny : Int) - 1) (iy + radius)),
        ∃ x ∈ intRange (max 1 (ix - radius)) (min ((nx : Int) - 1) (ix + radius)),
          (x - ix) * (x - ix) + (y - iy) * (y - iy) ≤ radius * radius
            ∧ k = y.toNat * nx + x.toNat) →
      ((intRange (max 1 (iy - radius)) (min ((ny : Int) - 1) (iy + radius))).foldl
        (fun u y => (intRange (max 1 (ix - radius)) (min ((nx : Int) - 1) (ix + radius))).foldl
          (cell y) u) u0)[k]? = (u0[k]?).map (fun v => v + amp)) ∧
    ((∀ y ∈ intRange (max 1 (iy - radius)) (min ((ny : Int) - 1) (iy + radius)),
        ¬ ∃ x ∈ intRange (max 1 (ix - radius)) (min ((nx : Int) - 1) (ix + radius)),
          (x - ix) * (x - ix) + (y - iy) * (y - iy) ≤ radius * radius
            ∧ k = y.toNat * nx + x.toNat) →
      ((intRange (max 1 (iy - radius)) (min ((ny : Int) - 1) (iy + radius))).foldl
        (fun u y => (intRange (max 1 (ix - radius)) (min ((nx : Int) - 1) (ix + radius))).foldl
          (cell y) u) u0)[k]? = u0[k]?) := by
  have hrow : ∀ (y : Int) (u : List ℚ) (k : Nat),
      ((∃ x ∈ intRange (max 1 (ix - radius)) (min ((nx : Int) - 1) (ix + radius)),
          (x - ix) * (x - ix) + (y - iy) * (y - iy) ≤ radius * radius
            ∧ k = y.toNat * nx + x.toNat) →
        ((intRange (max 1 (ix - radius)) (min ((nx : Int) - 1) (ix + radius))).foldl
          (cell y) u)[k]? = (u[k]?).map (fun v => v + amp)) ∧
      ((∀ x ∈ intRange (max 1 (ix - radius)) (min ((nx : Int) - 1) (ix + radius)),
          ¬ ((x - ix) * (x - ix) + (y - iy) * (y - iy) ≤ radius * radius
            ∧ k = y.toNat * nx + x.toNat)) →
        ((intRange (max 1 (ix - radius)) (min ((nx : Int) - 1) (ix + radius))).foldl
          (cell y) u)[k]? = u[k]?) := by
    intro y u k
    refine foldl_add amp (cell y)
      (fun x k => (x - ix) * (x - ix) + (y - iy) * (y - iy) ≤ radius * radius
        ∧ k = y.toNat * nx + x.toNat) _ ?_ ?_ ?_ u k
    · intro l x _ k hp
      rw [hcell, if_pos hp.1, hp.2]
      exact getElem?_set_add l _ amp
    · intro l x _ k hp
      rw [hcell]
      by_cases hc : (x - ix) * (x - ix) + (y - iy) * (y - iy) ≤ radius * radius
      · rw [if_pos hc, List.getElem?_set_ne (fun e => hp ⟨hc, e.symm⟩)]
      · rw [if_neg hc]
    · refine List.Pairwise.imp_of_mem ?_ (nodup_intRange _ _)
      intro a b ha hb hne k hpa hpb
      have h1 := (mem_intRange _ _ _).1 ha
      have h2 := (mem_intRange _ _ _).1 hb
      have := hpa.2.symm.trans hpb.2
      apply hne
      omega
  refine foldl_add amp
    (fun u y => (intRange (max 1 (ix - radius)) (min ((nx : Int) - 1) (ix + radius))).foldl
      (cell y) u)
    (fun y k => ∃ x ∈ intRange (max 1 (ix - radius)) (min ((nx : Int) - 1) (ix + radius)),
      (x - ix) * (x - ix) + (y - iy) * (y - iy) ≤ radius * radius
        ∧ k = y.toNat * nx + x.toNat) _ ?_ ?_ ?_ u0 k
  · intro l y _ k hp
    exact (hrow y l k).1 hp
  · intro l y _ k hp
    exact (hrow y l k).2 (fun x hx hc => hp ⟨x, hx, hc⟩)
  · refine List.Pairwise.imp_of_mem ?_ (nodup_intRange _ _)
    rintro a b ha hb hne k ⟨x, hx, _, hk⟩ ⟨x', hx', _, hk'⟩
    have h1 := (mem_intRange _ _ _).1 ha
    have h2 := (mem_intRange _ _ _).1 hb
    have h3 := (mem_intRange _ _ _).1 hx
    have h4 := (mem_intRange _ _ _).1 hx'
    have := idx_inj nx x.toNat a.toNat x'.toNat b.toNat (by omega) (by omega)
      (hk.symm.trans hk')
    apply hne
    omega

/-- A loop whose iterations keep the length of the field keeps it. -/
theorem foldl_length {α γ : Type} (g : List α → γ → List α) (ys : List γ)
    (hlen : ∀ l y, (g l y).length = l.length) (l0 : List α) :
    (ys.foldl g l0).length = l0.length := by
  induction ys generalizing l0 with
  | nil => rfl
  | cons y ys ih => rw [List.foldl_cons, ih, hlen]

/-- The two loops of `paint` on the cells of the grid: the field keeps its length; a cell on
the outermost rows and columns or outside the disc is unchanged; and every cell is either
unchanged or increased by `amp`. -/
theorem paint_cell_frame (nx ny : Nat) (ix iy radius : Int) (amp : ℚ)
    (cell : Int → List ℚ → Int → List ℚ)
    (hcell : ∀ y u x, cell y u x =
      if (x - ix) * (x - ix) + (y - iy) * (y - iy) ≤ radius * radius then
        u.set (y.toNat * nx + x.toNat) (u.getD (y.toNat * nx + x.toNat) 0 + amp)
      else u) (u0 res : List ℚ)
    (hres : res = (intRange (max 1 (iy - radius)) (min ((ny : Int) - 1) (iy + radius))).foldl
      (fun u y => (intRange (max 1 (ix - radius)) (min ((nx : Int) - 1) (ix + radius))).foldl
        (cell y) u) u0) :
    res.length = u0.length ∧
      (∀ x y, x < nx → y < ny →
        (x = 0 ∨ x = nx - 1 ∨ y = 0 ∨ y = ny - 1
          ∨ radius ^ 2 < ((x : Int) - ix) ^ 2 + ((y : Int) - iy) ^ 2) →
        res.getD (y * nx + x) 0 = u0.getD (y * nx + x) 0) ∧
      (∀ k, res.getD k 0 = u0.getD k 0 ∨ res.getD k 0 = u0.getD k 0 + amp) := by
  subst hres
  refine ⟨?_, ?_, ?_⟩
  · apply foldl_length
    intro l y
    apply foldl_length
    intro l x
    rw [hcell]
    by_cases hc : (x - ix) * (x - ix) + (y - iy) * (y - iy) ≤ radius * radius
    · rw [if_pos hc, List.length_set]
    · rw [if_neg hc]
  · intro x y hx hy hb
    have h := (paint_loops_spec nx ny ix iy radius amp cell hcell u0 (y * nx + x)).2 (by
      rintro y' hy' ⟨x', hx', hc, he⟩
      have h1 := (mem_intRange _ _ _).1 hy'
      have h2 := (mem_intRange _ _ _).1 hx'
      have h3 := idx_inj nx x y x'.toNat y'.toNat hx (by omega) he
      have ex : (x : Int) = x' := by omega
      have ey : (y : Int) = y' := by omega
      rw [← ex, ← ey] at hc
      rcases hb with h | h | h | h | h
      · omega
      · omega
      · omega
      · omega
      · rw [sq, sq, sq] at h
        exact absurd hc (not_le.2 h))
    rw [List.getD_eq_getElem?_getD, h, List.getD_eq_getElem?_getD]
  · intro k
    have h := paint_loops_spec nx ny ix iy radius amp cell hcell u0 k
    by_cases hex : ∃ y ∈ intRange (max 1 (iy - radius)) (min ((ny : Int) - 1) (iy + radius)),
        ∃ x ∈ intRange (max 1 (ix - radius)) (min ((nx : Int) - 1) (ix + radius)),
          (x - ix) * (x - ix) + (y - iy) * (y - iy) ≤ radius * radius
            ∧ k = y.toNat * nx + x.toNat
    · have h1 := h.1 hex
      rw [List.getD_eq_getElem?_getD, h1, List.getD_eq_getElem?_getD]
      cases hk : u0[k]? with
      | none => left; rfl
      | some v => right; rfl
    · have h1 := h.2 (fun y hy hx => hex ⟨y, hy, hx⟩)
      left
      rw [List.getD_eq_getElem?_getD, h1, List.getD_eq_getElem?_getD]

/-- Below the cap, the sub-step time step is positive and within the bound. -/
theorem substepDt_bound (dt mx : ℚ) (hmx : 0 < mx) (h1 : mx < dt) (h2 : dt ≤ 10 * mx) :
    substepDt dt mx = dt / ((min 10 ⌈dt / mx⌉ : Int) : ℚ) ∧ min 10 ⌈dt / mx⌉ = ⌈dt / mx⌉ ∧
      0 < substepDt dt mx ∧ substepDt dt mx ≤ mx := by
  have hq1 : 1 < dt / mx := by rw [lt_div_iff₀ hmx]; linarith
  have hq10 : dt / mx ≤ ((10 : Int) : ℚ) := by
    rw [div_le_iff₀ hmx]; push_cast; linarith
  have hc10 : ⌈dt / mx⌉ ≤ 10 := Int.ceil_le.2 hq10
  have hmin : min 10 ⌈dt / mx⌉ = ⌈dt / mx⌉ := min_eq_right hc10
  have hle : dt / mx ≤ (⌈dt / mx⌉ : ℚ) := Int.le_ceil _
  have hNpos : (0 : ℚ) < (⌈dt / mx⌉ : ℚ) := by linarith
  have hdt : dt = dt / mx * mx := by field_simp
  have hcast : castInt ⌈dt / mx⌉ = ⌈dt / mx⌉ :=
    castInt_eq _ ⟨by have := ceil_ratio_pos dt mx hmx h1; omega, by omega⟩
  have hval : substepDt dt mx = dt / ((min 10 ⌈dt / mx⌉ : Int) : ℚ) := by
    unfold substepDt; rw [if_pos h1, hcast]
  refine ⟨hval, hmin, ?_, ?_⟩
  · rw [hval, hmin]
    exact div_pos (by linarith) hNpos
  · rw [hval, hmin, div_le_iff₀ hNpos]
    calc dt = dt / mx * mx := hdt
      _ ≤ (⌈dt / mx⌉ : ℚ) * mx := mul_le_mul_of_nonneg_right hle (le_of_lt hmx)
      _ = mx * (⌈dt / mx⌉ : ℚ) := mul_comm _ _

/-- Above ten times the bound, with a ratio within the range of `int`, the cap is hit: ten
sub-steps, each above the bound. -/
theorem substepDt_capped (dt mx : ℚ) (hmx : 0 < mx) (h : 10 * mx < dt)
    (hr : ⌈dt / mx⌉ < 2 ^ 31) :
    min 10 ⌈dt / mx⌉ = 10 ∧ substepDt dt mx = dt / 10 ∧ mx < substepDt dt mx := by
  have hq : ((10 : Int) : ℚ) < dt / mx := by
    rw [lt_div_iff₀ hmx]; push_cast; linarith
  have hc : (10 : Int) ≤ ⌈dt / mx⌉ := by
    have : (10 : Int) < ⌈dt / mx⌉ := Int.lt_ceil.2 hq
    omega
  have hmin : min 10 ⌈dt / mx⌉ = 10 := min_eq_left hc
  have hval : substepDt dt mx = dt / 10 := by
    unfold substepDt
    rw [if_pos (by linarith), castInt_eq _ ⟨by omega, hr⟩, hmin]
    norm_num
  refine ⟨hmin, hval, ?_⟩
  rw [hval, lt_div_iff₀ (by norm_num)]
  linarith

/-- The time step at every `step()` call of the heat block is `substepDt`. -/
theorem heatFrame_trace (heat : Heat2D) (d : ℚ) (hd : d ∈ (heatFrame heat).2) :
    d = substepDt heat.dt heat.stable_dt_max := by
  unfold heatFrame at hd
  simp only [heatSubsteps_eq] at hd
  exact List.eq_of_mem_replicate hd

/-- The time step at every `step()` call of the wave block is `substepDt`. -/
theorem waveFrame_trace (sqrt2 : ℚ) (wave : Wave2D) (d : ℚ)
    (hd : d ∈ (waveFrame sqrt2 wave).2) :
    d = substepDt wave.dt (wave.stable_dt_max sqrt2) := by
  unfold waveFrame at hd
  simp only [waveSubsteps_eq] at hd
  exact List.eq_of_mem_replicate hd

/-- C18: uncapped sub-steps are within the bound.  For `mx = stable_dt_max() > 0` and a
time step `mx < dt <= 10*mx`, the count `min(10, ceil(dt/mx))` is `ceil(dt/mx)` and the
time step `subdt = dt / min(10, ceil(dt/mx))` at every `step()` call of the heat block and
of the wave block satisfies `0 < subdt <= mx`; a sub-step above `mx` occurs only for
`dt > 10*mx`, where the count is capped at `10` and `subdt = dt/10 > mx`. -/
theorem C18_uncapped_substeps_within_bound (heat : Heat2D) (wave : Wave2D) (sqrt2 : ℚ)
    (hh : 0 < heat.stable_dt_max) (hw : 0 < wave.stable_dt_max sqrt2) :
    ((heat.stable_dt_max < heat.dt → heat.dt ≤ 10 * heat.stable_dt_max →
          substepDt heat.dt heat.stable_dt_max
              = heat.dt / ((min 10 ⌈heat.dt / heat.stable_dt_max⌉ : Int) : ℚ) ∧
            (heatFrame heat).2 ≠ [] ∧
            ∀ d ∈ (heatFrame heat).2, d = substepDt heat.dt heat.stable_dt_max ∧
              0 < d ∧ d ≤ heat.stable_dt_max) ∧
        (∀ d ∈ (heatFrame heat).2, heat.stable_dt_max < d →
          10 * heat.stable_dt_max < heat.dt) ∧
        (10 * heat.stable_dt_max < heat.dt →
          ∀ d ∈ (heatFrame heat).2, d = heat.dt / 10 ∧ heat.stable_dt_max < d)) ∧
      ((wave.stable_dt_max sqrt2 < wave.dt → wave.dt ≤ 10 * wave.stable_dt_max sqrt2 →
          substepDt wave.dt (wave.stable_dt_max sqrt2)
              = wave.dt / ((min 10 ⌈wave.dt / wave.stable_dt_max sqrt2⌉ : Int) : ℚ) ∧
            (waveFrame sqrt2 wave).2 ≠ [] ∧
            ∀ d ∈ (waveFrame sqrt2 wave).2, d = substepDt wave.dt (wave.stable_dt_max sqrt2) ∧
              0 < d ∧ d ≤ wave.stable_dt_max sqrt2) ∧
        (∀ d ∈ (waveFrame sqrt2 wave).2, wave.stable_dt_max sqrt2 < d →
          10 * wave.stable_dt_max sqrt2 < wave.dt) ∧
        (10 * wave.stable_dt_max sqrt2 < wave.dt →
          ∀ d ∈ (waveFrame sqrt2 wave).2, d = wave.dt / 10 ∧ wave.stable_dt_max sqrt2 < d)) := by
  have key : ∀ (dt mx : ℚ) (tr : List ℚ), 0 < mx →
      (∀ d ∈ tr, d = substepDt dt mx) →
      (mx < dt → tr = List.replicate (min 10 (castInt ⌈dt / mx⌉)).toNat (substepDt dt mx)) →
      ((mx < dt → dt ≤ 10 * mx →
          substepDt dt mx = dt / ((min 10 ⌈dt / mx⌉ : Int) : ℚ) ∧ tr ≠ [] ∧
            ∀ d ∈ tr, d = substepDt dt mx ∧ 0 < d ∧ d ≤ mx) ∧
        (∀ d ∈ tr, mx < d → 10 * mx < dt) ∧
        (10 * mx < dt → ∀ d ∈ tr, d = dt / 10 ∧ mx < d)) := by
    intro dt mx tr hmx htr hrep
    refine ⟨?_, ?_, ?_⟩
    · intro h1 h2
      have hb := substepDt_bound dt mx hmx h1 h2
      refine ⟨hb.1, ?_, fun d hd => ?_⟩
      · have hq1 : 1 < dt / mx := by rw [lt_div_iff₀ hmx]; linarith
        have hc : (1 : Int) < ⌈dt / mx⌉ := Int.lt_ceil.2 (by push_cast; exact hq1)
        have hc10 : ⌈dt / mx⌉ ≤ 10 := by have := hb.2.1; omega
        rw [hrep h1, castInt_eq _ ⟨by omega, by omega⟩, hb.2.1]
        intro hnil
        have hlen := congrArg List.length hnil
        rw [List.length_replicate, List.length_nil] at hlen
        omega
      · rw [htr d hd]; exact ⟨rfl, hb.2.2.1, hb.2.2.2⟩
    · intro d hd hlt
      rw [htr d hd] at hlt
      by_contra hnot
      have h2 : dt ≤ 10 * mx := not_lt.1 hnot
      by_cases h1 : mx < dt
      · have := (substepDt_bound dt mx hmx h1 h2).2.2.2
        linarith
      · have : substepDt dt mx = dt := by unfold substepDt; rw [if_neg h1]
        rw [this] at hlt
        exact h1 hlt
    · intro h d hd
      by_cases hr : ⌈dt / mx⌉ < 2 ^ 31
      · have hc := substepDt_capped dt mx hmx h hr
        rw [htr d hd]
        exact ⟨hc.2.1, hc.2.2⟩
      · have hcast : castInt ⌈dt / mx⌉ = -2 ^ 31 := if_neg (fun hin => hr hin.2)
        have hnil := hrep (by linarith)
        rw [hcast] at hnil
        rw [hnil] at hd
        exact absurd hd (List.not_mem_nil d)
  have hrepH : heat.stable_dt_max < heat.dt → (heatFrame heat).2
      = List.replicate (min 10 (castInt ⌈heat.dt / heat.stable_dt_max⌉)).toNat
        (substepDt heat.dt heat.stable_dt_max) := by
    intro hlt
    unfold heatFrame
    simp only [heatSubsteps_eq, substepCount, if_pos (show heat.dt > heat.stable_dt_max from hlt)]
  have hrepW : wave.stable_dt_max sqrt2 < wave.dt → (waveFrame sqrt2 wave).2
      = List.replicate (min 10 (castInt ⌈wave.dt / wave.stable_dt_max sqrt2⌉)).toNat
        (substepDt wave.dt (wave.stable_dt_max sqrt2)) := by
    intro hlt
    unfold waveFrame
    simp only [waveSubsteps_eq, substepCount,
      if_pos (show wave.dt > wave.stable_dt_max sqrt2 from hlt)]
  exact ⟨key _ _ _ hh (heatFrame_trace heat) hrepH,
    key _ _ _ hw (waveFrame_trace sqrt2 wave) hrepW⟩

/-- Witness of C18: `heatTriple`, whose `dt` is three times its bound. -/
theorem C18_uncapped_substeps_within_bound_witness :
    (0 < heatTriple.stable_dt_max ∧ 0 < waveSample.stable_dt_max (7 / 5) ∧
        heatTriple.stable_dt_max < heatTriple.dt ∧
        heatTriple.dt ≤ 10 * heatTriple.stable_dt_max) ∧
      (heatFrame heatTriple).2 ≠ [] ∧
      ∀ d ∈ (heatFrame heatTriple).2, d = substepDt heatTriple.dt heatTriple.stable_dt_max ∧
        0 < d ∧ d ≤ heatTriple.stable_dt_max :=
  ⟨⟨by rw [heatTriple_bound]; norm_num, by rw [waveSample_bound]; norm_num,
      by rw [heatTriple_bound]; simp [heatTriple]; norm_num,
      by rw [heatTriple_bound]; simp [heatTriple]; norm_num⟩,
    ((C18_uncapped_substeps_within_bound heatTriple waveSample (7 / 5)
      (by rw [heatTriple_bound]; norm_num) (by rw [waveSample_bound]; norm_num)).1.1
      (by rw [heatTriple_bound]; simp [heatTriple]; norm_num)
      (by rw [heatTriple_bound]; simp [heatTriple]; norm_num)).2⟩

/-! ## C19: the cells of `Life2D` are `0` or `1` -/

/-- The value `nxt` of `Life2D::step` is `0` or `1`. -/
theorem Life2D.nextCell_binary (s : Life2D) (i j : Nat) :
    s.nextCell i j = 0 ∨ s.nextCell i j = 1 := by
  unfold Life2D.nextCell
  simp only
  split_ifs <;> simp

/-- Every cell of the field computed by `Life2D::step` is the value computed for a cell. -/
theorem Life2D.mem_step_a (s : Life2D) (hb : s.b.length = s.nx * s.ny) (v : Nat)
    (hv : v ∈ s.step.a) : ∃ i j, i < s.nx ∧ j < s.ny ∧ v = s.nextCell i j := by
  obtain ⟨k, hk, rfl⟩ := List.getElem_of_mem hv
  have hk2 := hk
  rw [Life2D.life_step_length, hb] at hk
  have hnx : 0 < s.nx := by
    rcases Nat.eq_zero_or_pos s.nx with h0 | h0
    · rw [h0] at hk; omega
    · exact h0
  have hi : k % s.nx < s.nx := Nat.mod_lt _ hnx
  have hj : k / s.nx < s.ny := (Nat.div_lt_iff_lt_mul hnx).2 (by rw [Nat.mul_comm]; exact hk)
  have hkk : s.idx (k % s.nx) (k / s.nx) = k := by
    unfold Life2D.idx; rw [Nat.mul_comm]; exact Nat.div_add_mod k s.nx
  have h := Life2D.life_step_getElem? s hb (k % s.nx) (k / s.nx) hi hj
  rw [hkk, List.getElem?_eq_getElem hk2] at h
  exact ⟨k % s.nx, k / s.nx, hi, hj, Option.some.inj h⟩

/-- Flipping the lowest bit of `0` or `1` gives `1` or `0`. -/
theorem xor_one_binary (v : Nat) (h : v = 0 ∨ v = 1) : Nat.xor v 1 = 0 ∨ Nat.xor v 1 = 1 := by
  rcases h with rfl | rfl
  · right; decide
  · left; decide

/-- `Life2D::toggle` keeps a binary field binary. -/
theorem Life2D.toggle_binary (s : Life2D) (ix iy radius : Int) (h : s.binary) :
    (s.toggle ix iy radius).binary := by
  by_cases hout : ix < 0 ∨ iy < 0 ∨ ix ≥ wrapInt s.nx ∨ iy ≥ wrapInt s.ny
  · have e : s.toggle ix iy radius = s := by unfold Life2D.toggle; rw [if_pos hout]
    rw [e]; exact h
  · by_cases hr : radius ≤ 0
    · have e : s.toggle ix iy radius = Life2D.mk s.nx s.ny (s.a.set (s.idx ix.toNat iy.toNat)
          (Nat.xor (s.a.getD (s.idx ix.toNat iy.toNat) 0) 1)) s.b := by
        unfold Life2D.toggle; rw [if_neg hout, if_pos hr]
      rw [e]
      intro v hv
      rcases List.mem_or_eq_of_mem_set hv with hm | rfl
      · exact h v hm
      · apply xor_one_binary
        rw [List.getD_eq_getElem?_getD]
        by_cases hk : s.idx ix.toNat iy.toNat < s.a.length
        · rw [List.getElem?_eq_getElem hk, Option.getD_some]
          exact h _ (List.getElem_mem _)
        · rw [List.getElem?_eq_none (by omega)]
          left; rfl
    · have hspec := Life2D.toggle_area_spec s ix iy radius hout (by omega)
      obtain ⟨_, _, _, hlen, hcell⟩ := hspec
      intro v hv
      obtain ⟨k, hk, rfl⟩ := List.getElem_of_mem hv
      have hk1 : k < s.a.length := by rw [← hlen]; exact hk
      by_cases hex : ∃ y ∈ intRange (scanLo iy radius) (scanHi s.ny iy radius),
          ∃ x ∈ intRange (scanLo ix radius) (scanHi s.nx ix radius),
            toggleHit ix iy (wrapInt (radius * radius)) x y ∧ k = s.idx x.toNat y.toNat
      · have := (hcell k).1 hk1 hex
        rw [List.getElem?_eq_getElem hk] at this
        right; exact Option.some.inj this
      · have := (hcell k).2 (fun y hy hx => hex ⟨y, hy, hx⟩)
        rw [List.getElem?_eq_getElem hk, List.getElem?_eq_getElem hk1] at this
        rw [Option.some.inj this]
        exact h _ (List.getElem_mem _)

/-- A loop that only appends to a list the entries `Q y` of its iteration `y` ends with the
entries it started with and those of its iterations. -/
theorem mem_foldl_collect {γ : Type} (G : List Nat → γ → List Nat) (Q : γ → Nat → Prop)
    (ys : List γ) (hG : ∀ acc, ∀ y ∈ ys, ∀ k, k ∈ G acc y ↔ k ∈ acc ∨ Q y k) :
    ∀ acc k, k ∈ ys.foldl G acc ↔ k ∈ acc ∨ ∃ y ∈ ys, Q y k := by
  induction ys with
  | nil => intro acc k; simp
  | cons y ys ih =>
    intro acc k
    rw [List.foldl_cons, ih (fun acc z hz => hG acc z (List.mem_cons_of_mem _ hz)),
      hG acc y (List.mem_cons_self _ _)]
    simp only [List.mem_cons, exists_eq_or_imp]
    tauto

/-- The subscripts of one loop body of `step` are those of a cell of the grid and, for an
interior cell, of its four neighbours. -/
theorem Grid.cellAccesses_lt (g : Grid) (i j : Nat) (hi : i < g.nx) (hj : j < g.ny) (k : Nat)
    (hk : k ∈ g.cellAccesses i j) : k < g.nx * g.ny := by
  unfold Grid.cellAccesses at hk
  by_cases hb : i = 0 ∨ j = 0 ∨ i = g.nx - 1 ∨ j = g.ny - 1
  · rw [if_pos hb, List.mem_singleton] at hk
    rw [hk]; exact idx_lt _ _ i j hi hj
  · rw [if_neg hb] at hk
    simp only [List.mem_cons, List.mem_singleton, List.not_mem_nil, or_false] at hk
    rcases hk with h | h | h | h | h | h <;> rw [h]
    · exact idx_lt _ _ i j hi hj
    · exact idx_lt _ _ (i + 1) j (by omega) hj
    · exact idx_lt _ _ (i - 1) j (by omega) hj
    · exact idx_lt _ _ i (j + 1) hi (by omega)
    · exact idx_lt _ _ i (j - 1) hi (by omega)
    · exact idx_lt _ _ i j hi hj

/-- Every subscript evaluated by `step` is below `nx*ny`. -/
theorem Grid.stepAccesses_lt (g : Grid) (k : Nat) (hk : k ∈ g.stepAccesses) :
    k < g.nx * g.ny := by
  unfold Grid.stepAccesses at hk
  have hrow : ∀ acc, ∀ j ∈ List.range g.ny, ∀ k,
      k ∈ (List.range g.nx).foldl (fun acc i => acc ++ g.cellAccesses i j) acc ↔
        k ∈ acc ∨ ∃ i ∈ List.range g.nx, k ∈ g.cellAccesses i j := by
    intro acc j _ k
    exact mem_foldl_collect (fun acc i => acc ++ g.cellAccesses i j)
      (fun i k => k ∈ g.cellAccesses i j) _ (fun acc i _ k => List.mem_append) acc k
  rw [mem_foldl_collect _ (fun j k => ∃ i ∈ List.range g.nx, k ∈ g.cellAccesses i j) _ hrow] at hk
  rcases hk with h | ⟨j, hj, i, hi, h⟩
  · exact absurd h (List.not_mem_nil k)
  · exact g.cellAccesses_lt i j (List.mem_range.1 hi) (List.mem_range.1 hj) k h

/-- Every subscript evaluated by `paint` is that of an interior cell, below `nx*ny`. -/
theorem Grid.paintAccesses_lt (g : Grid) (ix iy radius : Int) (k : Nat)
    (hk : k ∈ g.paintAccesses ix iy radius) :
    k < g.nx * g.ny ∧ ∃ x y, 1 ≤ x ∧ x + 1 < g.nx ∧ 1 ≤ y ∧ y + 1 < g.ny ∧ k = g.idx x y := by
  unfold Grid.paintAccesses at hk
  have hrow : ∀ acc, ∀ y ∈ intRange (max 1 (iy - radius)) (min ((g.ny : Int) - 1) (iy + radius)),
      ∀ k, k ∈ (intRange (max 1 (ix - radius)) (min ((g.nx : Int) - 1) (ix + radius))).foldl
          (fun acc x =>
            if (x - ix) * (x - ix) + (y - iy) * (y - iy) ≤ radius * radius then
              acc ++ [g.idx x.toNat y.toNat]
            else acc) acc ↔
        k ∈ acc ∨ ∃ x ∈ intRange (max 1 (ix - radius)) (min ((g.nx : Int) - 1) (ix + radius)),
          (x - ix) * (x - ix) + (y - iy) * (y - iy) ≤ radius * radius
            ∧ k = g.idx x.toNat y.toNat := by
    intro acc y _ k
    refine mem_foldl_collect _ (fun x k =>
      (x - ix) * (x - ix) + (y - iy) * (y - iy) ≤ radius * radius
        ∧ k = g.idx x.toNat y.toNat) _ ?_ acc k
    intro acc x _ k
    by_cases hc : (x - ix) * (x - ix) + (y - iy) * (y - iy) ≤ radius * radius
    · show k ∈ (if (x - ix) * (x - ix) + (y - iy) * (y - iy) ≤ radius * radius then
          acc ++ [g.idx x.toNat y.toNat] else acc) ↔ _
      rw [if_pos hc]
      simp only [List.mem_append, List.mem_singleton, hc, true_and]
    · show k ∈ (if (x - ix) * (x - ix) + (y - iy) * (y - iy) ≤ radius * radius then
          acc ++ [g.idx x.toNat y.toNat] else acc) ↔ _
      rw [if_neg hc]
      simp only [hc, false_and, or_false]
  rw [mem_foldl_collect _ (fun y k =>
    ∃ x ∈ intRange (max 1 (ix - radius)) (min ((g.nx : Int) - 1) (ix + radius)),
      (x - ix) * (x - ix) + (y - iy) * (y - iy) ≤ radius * radius
        ∧ k = g.idx x.toNat y.toNat) _ hrow] at hk
  rcases hk with h | ⟨y, hy, x, hx, _, h⟩
  · exact absurd h (List.not_mem_nil k)
  · have h1 := (mem_intRange _ _ _).1 hy
    have h2 := (mem_intRange _ _ _).1 hx
    rw [h]
    exact ⟨idx_lt _ _ x.toNat y.toNat (by omega) (by omega),
      x.toNat, y.toNat, by omega, by omega, by omega, by omega, rfl⟩

/-- C20: index safety and buffer sizes of the PDE engines.  On a grid with `nx, ny >= 2`
and fields of `nx*ny` samples, every subscript evaluated by `step` and by `paint` (for every
centre and radius) is below `nx*ny`, the four stencil neighbours of an interior cell are
below `nx*ny`, and after `step`, `paint` and `reset` the grid is the same and every field
still has `nx*ny` samples; for `Heat2D` and for `Wave2D`. -/
theorem C20_index_safety (heat : Heat2D) (wave : Wave2D) (ix iy radius : Int) (amp : ℚ)
    (hhx : 2 ≤ heat.g.nx) (hhy : 2 ≤ heat.g.ny) (hh : heat.WF)
    (hwx : 2 ≤ wave.g.nx) (hwy : 2 ≤ wave.g.ny) (hw : wave.WF) :
    ((∀ k ∈ heat.g.stepAccesses, k < heat.g.nx * heat.g.ny) ∧
        (∀ k ∈ heat.g.paintAccesses ix iy radius, k < heat.g.nx * heat.g.ny) ∧
        (∀ i j, 0 < i → i < heat.g.nx - 1 → 0 < j → j < heat.g.ny - 1 →
          heat.g.idx (i + 1) j < heat.g.nx * heat.g.ny ∧
          heat.g.idx (i - 1) j < heat.g.nx * heat.g.ny ∧
          heat.g.idx i (j + 1) < heat.g.nx * heat.g.ny ∧
          heat.g.idx i (j - 1) < heat.g.nx * heat.g.ny) ∧
        (heat.step.g = heat.g ∧ heat.step.WF) ∧
        ((heat.paint ix iy radius amp).g = heat.g ∧ (heat.paint ix iy radius amp).WF) ∧
        (heat.reset.g = heat.g ∧ heat.reset.WF)) ∧
      ((∀ k ∈ wave.g.stepAccesses, k < wave.g.nx * wave.g.ny) ∧
        (∀ k ∈ wave.g.paintAccesses ix iy radius, k < wave.g.nx * wave.g.ny) ∧
        (∀ i j, 0 < i → i < wave.g.nx - 1 → 0 < j → j < wave.g.ny - 1 →
          wave.g.idx (i + 1) j < wave.g.nx * wave.g.ny ∧
          wave.g.idx (i - 1) j < wave.g.nx * wave.g.ny ∧
          wave.g.idx i (j + 1) < wave.g.nx * wave.g.ny ∧
          wave.g.idx i (j - 1) < wave.g.nx * wave.g.ny) ∧
        (wave.step.g = wave.g ∧ wave.step.WF) ∧
        ((wave.paint ix iy radius amp).g = wave.g ∧ (wave.paint ix iy radius amp).WF) ∧
        (wave.reset.g = wave.g ∧ wave.reset.WF)) := by
  have _h := And.intro (And.intro hhx hhy) (And.intro hwx hwy)
  have hnb : ∀ g : Grid, ∀ i j, 0 < i → i < g.nx - 1 → 0 < j → j < g.ny - 1 →
      g.idx (i + 1) j < g.nx * g.ny ∧ g.idx (i - 1) j < g.nx * g.ny ∧
        g.idx i (j + 1) < g.nx * g.ny ∧ g.idx i (j - 1) < g.nx * g.ny := by
    intro g i j hi0 hi hj0 hj
    exact ⟨idx_lt _ _ (i + 1) j (by omega) (by omega), idx_lt _ _ (i - 1) j (by omega) (by omega),
      idx_lt _ _ i (j + 1) (by omega) (by omega), idx_lt _ _ i (j - 1) (by omega) (by omega)⟩
  have hpH := paint_cell_frame heat.g.nx heat.g.ny ix iy radius amp
    (fun y u x => heat.paintCell ix iy (radius * radius) amp y u x) (fun _ _ _ => rfl)
    heat.u (heat.paint ix iy radius amp).u rfl
  have hpW := paint_cell_frame wave.g.nx wave.g.ny ix iy radius amp
    (fun y u x => wave.paintCell ix iy (radius * radius) amp y u x) (fun _ _ _ => rfl)
    wave.u (wave.paint ix iy radius amp).u rfl
  refine ⟨⟨heat.g.stepAccesses_lt, fun k hk => (heat.g.paintAccesses_lt ix iy radius k hk).1,
      hnb heat.g, ⟨rfl, ?_, hh.1⟩, ⟨rfl, ?_, hh.2⟩, ⟨rfl, ?_, hh.2⟩⟩,
    ⟨wave.g.stepAccesses_lt, fun k hk => (wave.g.paintAccesses_lt ix iy radius k hk).1,
      hnb wave.g, ⟨rfl, ?_, hw.1, hw.2.1⟩, ⟨rfl, ?_, hw.2.1, hw.2.2⟩, ⟨rfl, ?_, ?_, hw.2.2⟩⟩⟩
  · show heat.step.u.length = _
    rw [Heat2D.heat_step_length]; exact hh.2
  · exact hpH.1.trans hh.1
  · show (heat.u.map (fun _ => (0 : ℚ))).length = _
    rw [List.length_map]; exact hh.1
  · show wave.step.u.length = _
    rw [Wave2D.wave_step_length]; exact hw.2.2
  · exact hpW.1.trans hw.1
  · show (wave.u.map (fun _ => (0 : ℚ))).length = _
    rw [List.length_map]; exact hw.1
  · show (wave.u_prev.map (fun _ => (0 : ℚ))).length = _
    rw [List.length_map]; exact hw.2.1

/-- Witness of C20: the engines `heatCheckerboard` and `waveSample`, painted at `(2,2)`. -/
theorem C20_index_safety_witness :
    (2 ≤ heatCheckerboard.g.nx ∧ 2 ≤ heatCheckerboard.g.ny ∧ heatCheckerboard.WF ∧
        2 ≤ waveSample.g.nx ∧ 2 ≤ waveSample.g.ny ∧ waveSample.WF) ∧
      (∀ k ∈ heatCheckerboard.g.stepAccesses,
        k < heatCheckerboard.g.nx * heatCheckerboard.g.ny) ∧
      (∀ k ∈ waveSample.g.paintAccesses 2 2 1, k < waveSample.g.nx * waveSample.g.ny) ∧
      (heatCheckerboard.paint 2 2 1 1).WF :=
  ⟨by decide,
    (C20_index_safety heatCheckerboard waveSample 2 2 1 1 (by decide) (by decide) (by decide)
      (by decide) (by decide) (by decide)).1.1,
    (C20_index_safety heatCheckerboard waveSample 2 2 1 1 (by decide) (by decide) (by decide)
      (by decide) (by decide) (by decide)).2.2.1,
    (C20_index_safety heatCheckerboard waveSample 2 2 1 1 (by decide) (by decide) (by decide)
      (by decide) (by decide) (by decide)).1.2.2.2.2.1.2⟩

end hv
